import Mathlib

/-!
Verification development for the WeasyPrint CSS cascade / computed-style
resolver (`weasy/css/__init__.py`) and the box-tree normalization passes
(specified in the design document and pinned by `weasy/tests/test_boxes.py`).

The Python code is shallowly embedded: dictionaries become association
lists, generators become lists, exceptions become `Except String`, and the
document tree becomes an inductive rose tree.  Components that the design
document treats as external collaborators (the CSS parser, the selector
compiler, the property validator, the computed-value calculator and the
`properties` tables) are taken as parameters of the embedded functions.
-/

/-! ## Association lists (embedding of Python `dict`)

`alGet` is `d.get(k)`, `alSet` is `d[k] = v` (update in place, append for a
fresh key), `alKeys` is the key view.  Python dict keys are unique; maps
built from `[]` with `alSet` keep that invariant. -/

def alGet {κ α : Type} [DecidableEq κ] : List (κ × α) → κ → Option α
  | [], _ => none
  | (k, v) :: m, key => if k = key then some v else alGet m key

def alSet {κ α : Type} [DecidableEq κ] : List (κ × α) → κ → α → List (κ × α)
  | [], key, v => [(key, v)]
  | (k, w) :: m, key, v =>
      if k = key then (k, v) :: m else (k, w) :: alSet m key v

def alKeys {κ α : Type} : List (κ × α) → List κ
  | [] => []
  | (k, _) :: m => k :: alKeys m

theorem alGet_alSet_self {κ α : Type} [DecidableEq κ] (m : List (κ × α))
    (k : κ) (v : α) : alGet (alSet m k v) k = some v := by
  induction m with
  | nil => simp [alSet, alGet]
  | cons p m ih =>
      obtain ⟨k2, w⟩ := p
      by_cases h : k2 = k <;> simp [alSet, alGet, h, ih]

theorem alGet_alSet_of_ne {κ α : Type} [DecidableEq κ] (m : List (κ × α))
    {k k2 : κ} (v : α) (h : k ≠ k2) :
    alGet (alSet m k v) k2 = alGet m k2 := by
  induction m with
  | nil => simp [alSet, alGet, h]
  | cons p m ih =>
      obtain ⟨k3, w⟩ := p
      by_cases h3 : k3 = k
      · subst h3; simp [alSet, alGet, h]
      · simp [alSet, alGet, h3, ih]

theorem mem_alKeys_alSet {κ α : Type} [DecidableEq κ] (m : List (κ × α))
    (k a : κ) (v : α) :
    a ∈ alKeys (alSet m k v) ↔ a ∈ alKeys m ∨ a = k := by
  induction m with
  | nil => simp [alSet, alKeys]
  | cons p m ih =>
      obtain ⟨k2, w⟩ := p
      by_cases h : k2 = k
      · subst h; simp [alSet, alKeys] at *; tauto
      · simp [alSet, alKeys, h] at *
        rw [ih]; tauto

theorem alGet_isSome_iff {κ α : Type} [DecidableEq κ] (m : List (κ × α))
    (k : κ) : (alGet m k).isSome ↔ k ∈ alKeys m := by
  induction m with
  | nil => simp [alGet, alKeys]
  | cons p m ih =>
      obtain ⟨k2, w⟩ := p
      by_cases h : k2 = k
      · subst h; simp [alGet, alKeys]
      · simp [alGet, alKeys, h, ih]
        intro h2
        exact absurd h2.symm h

theorem alKeys_nodup_alSet {κ α : Type} [DecidableEq κ] (m : List (κ × α))
    (k : κ) (v : α) (h : (alKeys m).Nodup) : (alKeys (alSet m k v)).Nodup := by
  induction m with
  | nil => simp [alSet, alKeys]
  | cons p m ih =>
      obtain ⟨k2, w⟩ := p
      simp [alKeys] at h
      by_cases hk : k2 = k
      · subst hk; simpa [alSet, alKeys] using h
      · simp [alSet, alKeys, hk]
        refine ⟨fun hmem => h.1 ?_, ih h.2⟩
        rcases (mem_alKeys_alSet m k k2 v).1 hmem with h2 | h2
        · exact h2
        · exact absurd h2 hk

/-! ## Weights

A cascade weight is `(precedence, specificity)` compared with Python's
tuple comparison.  Selector specificities are 4-tuples; `@page`
pseudo-class specificities are plain integers (`0`, `1`, `10`).  The two
kinds never meet on one pseudo key, but Python 2 still totally orders them
(numbers sort before tuples, by type name), which the embedding mirrors. -/

inductive Specificity where
  | pageSpec (n : Nat)
  | selSpec (a b c d : Nat)
  deriving DecidableEq

def Specificity.leB : Specificity → Specificity → Bool
  | .pageSpec m, .pageSpec n => decide (m ≤ n)
  | .pageSpec _, .selSpec _ _ _ _ => true
  | .selSpec _ _ _ _, .pageSpec _ => false
  | .selSpec a b c d, .selSpec e f g h =>
      decide (a < e ∨ (a = e ∧ (b < f ∨ (b = f ∧ (c < g ∨ (c = g ∧ d ≤ h))))))

abbrev Weight := Nat × Specificity

def weightLe (w₁ w₂ : Weight) : Bool :=
  decide (w₁.1 < w₂.1) || (decide (w₁.1 = w₂.1) && Specificity.leB w₁.2 w₂.2)

theorem Specificity.leB_refl (s : Specificity) : Specificity.leB s s = true := by
  cases s <;> simp [Specificity.leB]

theorem Specificity.leB_total (s t : Specificity) :
    Specificity.leB s t = true ∨ Specificity.leB t s = true := by
  cases s <;> cases t <;> simp [Specificity.leB] <;> omega

theorem Specificity.leB_antisymm {s t : Specificity}
    (h1 : Specificity.leB s t = true) (h2 : Specificity.leB t s = true) :
    s = t := by
  cases s <;> cases t <;> simp [Specificity.leB] at h1 h2 ⊢ <;> omega

theorem weightLe_refl (w : Weight) : weightLe w w = true := by
  simp [weightLe, Specificity.leB_refl]

theorem weightLe_total (w₁ w₂ : Weight) :
    weightLe w₁ w₂ = true ∨ weightLe w₂ w₁ = true := by
  rcases Nat.lt_trichotomy w₁.1 w₂.1 with h | h | h
  · left; simp [weightLe, h]
  · rcases Specificity.leB_total w₁.2 w₂.2 with hs | hs
    · left; simp [weightLe, h, hs]
    · right; simp [weightLe, h.symm, hs]
  · right; simp [weightLe, h]

theorem weightLe_antisymm {w₁ w₂ : Weight}
    (h1 : weightLe w₁ w₂ = true) (h2 : weightLe w₂ w₁ = true) : w₁ = w₂ := by
  obtain ⟨p₁, s₁⟩ := w₁
  obtain ⟨p₂, s₂⟩ := w₂
  simp [weightLe] at h1 h2
  rcases h1 with h1 | ⟨h1, h1s⟩
  · rcases h2 with h2 | ⟨h2, _⟩
    · omega
    · omega
  · rcases h2 with h2 | ⟨h2, h2s⟩
    · omega
    · exact Prod.ext (by omega) (Specificity.leB_antisymm h1s h2s)

/-! ## Cascade data model -/

abbrev PropName := String

abbrev ValueList := List String

/-- A pseudo-key element: a DOM element (identified by a node id) or the
literal string `'@page'` used as the marker element for page styles. -/
inductive ElemRef where
  | elem (id : Nat)
  | page
  deriving DecidableEq

abbrev PseudoKey := ElemRef × Option String

/-- One pseudo key's cascaded style: property name → (values, weight). -/
abbrev Style := List (PropName × (ValueList × Weight))

abbrev CascadedMap := List (PseudoKey × Style)

/-- Embedding of `add_declaration` (`weasy/css/__init__.py:214-223`):
set the value for a property on a given pseudo key unless there already is
a value of greater weight.  `setdefault` plus in-place mutation of the
per-key dict becomes get-with-default followed by a write-back. -/
def add_declaration (cascaded_styles : CascadedMap) (prop_name : PropName)
    (prop_values : ValueList) (weight : Weight) (element : ElemRef)
    (pseudo_type : Option String) : CascadedMap :=
  let style := (alGet cascaded_styles (element, pseudo_type)).getD []
  let style2 :=
    match alGet style prop_name with
    | none => alSet style prop_name (prop_values, weight)
    | some (_, previous_weight) =>
        if weightLe previous_weight weight then
          alSet style prop_name (prop_values, weight)
        else style
  alSet cascaded_styles (element, pseudo_type) style2

/-- The stored winner for a property on a pseudo key. -/
def getWinner (cascaded_styles : CascadedMap) (element : ElemRef)
    (pseudo_type : Option String) (name : PropName) :
    Option (ValueList × Weight) :=
  alGet ((alGet cascaded_styles (element, pseudo_type)).getD []) name

/-! ## declaration_precedence

`weasy/css/__init__.py:191-211`.  The final branch of the Python function
is `assert ValueError('Unkown origin: %r' % origin)`: it asserts a freshly
constructed exception *object*, which is always truthy, so the assert never
fails and the function falls through, returning `None`.  The embedding
returns `Except String (Option Nat)` so that "raises" (`.error`) and
"returns None" (`.ok none`) stay distinguishable. -/

/-- Truthiness of a `ValueError(...)` instance: exception objects are
truthy in Python, so `assert ValueError(...)` never fails. -/
def valueErrorInstanceIsTruthy : Bool := true

def declaration_precedence (origin : String) (importance : Bool) :
    Except String (Option Nat) :=
  if origin = "user agent" then .ok (some 1)
  else if origin = "user" ∧ ¬importance then .ok (some 2)
  else if origin = "author" ∧ ¬importance then .ok (some 3)
  else if origin = "author" then .ok (some 4)
  else if origin = "user" then .ok (some 5)
  else if valueErrorInstanceIsTruthy then .ok none
  else .error "AssertionError"

/-! ## Page selectors

`PAGE_PSEUDOCLASS_TARGETS`, `PAGE_PSEUDOCLASS_SPECIFICITY`
(`weasy/css/__init__.py:64-78`) and `match_page_selector` (lines 293-312).
In the Python source the specificity lookup uses `dict[key]` (possible
`KeyError`) and is executed *before* the `page_types is not None` guard. -/

def PAGE_PSEUDOCLASS_TARGETS : Option String → Option (List String)
  | none => some ["left", "right", "first_left", "first_right"]
  | some ":left" => some ["left", "first_left"]
  | some ":right" => some ["right", "first_right"]
  | some ":first" => some ["first_left", "first_right"]
  | some _ => none

def PAGE_PSEUDOCLASS_SPECIFICITY : Option String → Option Nat
  | none => some 0
  | some ":left" => some 1
  | some ":right" => some 1
  | some ":first" => some 10
  | some _ => none

/-- Embedding of `match_page_selector`.  The argument is the page rule's
selector text (`''` when there is no pseudo-class); a yielded triple is
`('@page', page_type, specificity)` with the bare specificity integer.
`PAGE_PSEUDOCLASS_SPECIFICITY[...]` is a raising `dict[key]` lookup, and it
is evaluated *before* `page_types` is tested, exactly as in the source. -/
def match_page_selector (selector : String) :
    Except String (List (ElemRef × String × Nat)) :=
  let pseudo_class : Option String := if selector = "" then none else some selector
  let page_types := PAGE_PSEUDOCLASS_TARGETS pseudo_class
  match PAGE_PSEUDOCLASS_SPECIFICITY pseudo_class with
  | none => .error ("KeyError: " ++ selector)
  | some specificity =>
      match page_types with
      | some pts =>
          .ok (pts.map fun page_type => (ElemRef.page, page_type, specificity))
      | none => .ok []

/-! ## Style rules: selector matching

`match_selectors` (`weasy/css/__init__.py:264-290`) first compiles *every*
selector of the rule's selector list, returning an empty iterable as soon
as one compilation fails (`cssselect.ExpressionError` is caught and only
logged); only then does it yield `(element, pseudo_type, specificity)`
triples for all selectors.  Selector compilation and evaluation belong to
the external `lxml.cssselect` collaborator, so a selector is embedded by
its observable outcome: `compiled = none` models an unsupported selector,
`compiled = some (pseudo_type, elems)` a successful compilation together
with the elements its matcher returns on the document. -/

structure PySelector where
  compiled : Option (Option String × List Nat)
  specificity : Specificity

def match_selectors (selector_list : List PySelector) :
    List (Nat × Option String × Specificity) :=
  if selector_list.any fun s => s.compiled.isNone then []
  else
    selector_list.foldr (fun s acc =>
      (match s.compiled with
       | some (pt, elems) => elems.map fun e => (e, pt, s.specificity)
       | none => []) ++ acc) []

/-! ## Inline style attributes

Embedding of the loop at `weasy/css/__init__.py:458-464`.  The loop body
reads the *free variable* `pseudo_type`: it is never assigned inside this
loop, so it holds whatever the earlier `for element, pseudo_type,
specificity in matched:` loop left bound (or is unbound, raising
`UnboundLocalError`, when no rule produced a match).  The
`stale_pseudo_type` argument carries that leaked binding:
`.ok p` when the variable is bound to `p`, `.error ...` when unbound. -/

abbrev Declaration := PropName × ValueList × Bool

/-- `declaration_precedence('author', importance)` as used on line 460:
author origin always reaches an `.ok (some _)` branch. -/
def author_precedence (importance : Bool) : Nat :=
  match declaration_precedence "author" importance with
  | .ok (some p) => p
  | _ => 0

def apply_style_attributes (cascaded_styles : CascadedMap)
    (style_attributes : List (Nat × List Declaration))
    (stale_pseudo_type : Except String (Option String)) :
    Except String CascadedMap :=
  style_attributes.foldlM (fun casc ep =>
    ep.2.foldlM (fun casc d => do
      let precedence := author_precedence d.2.2
      let weight : Weight := (precedence, .selSpec 1 0 0 0)
      let pseudo_type ← stale_pseudo_type
      pure (add_declaration casc d.1 d.2.1 weight (.elem ep.1) pseudo_type))
      casc)
    cascaded_styles

/-! ## Claim theorems: cascade weights and precedence -/

/-- C1: in `add_declaration`, a new `(valueList, weight)` replaces the
stored winner iff no value is stored yet or the new weight is greater than
or equal to the stored weight; consequently, of two declarations on the
same property and pseudo key, the one with the strictly higher weight is
stored regardless of processing order, and at equal weights the
later-processed one is stored. -/
theorem add_declaration_weight_order
    (cascaded : CascadedMap) (name : PropName) (v₁ v₂ : ValueList)
    (w₁ w₂ : Weight) (el : ElemRef) (ps : Option String) :
    (getWinner (add_declaration cascaded name v₁ w₁ el ps) el ps name =
        some (v₁, w₁) ↔
      getWinner cascaded el ps name = none ∨
        ∃ v w, getWinner cascaded el ps name = some (v, w) ∧
          weightLe w w₁ = true) ∧
    (getWinner cascaded el ps name = none →
      (weightLe w₂ w₁ = false →
        getWinner (add_declaration (add_declaration cascaded name v₁ w₁ el ps)
            name v₂ w₂ el ps) el ps name = some (v₂, w₂) ∧
        getWinner (add_declaration (add_declaration cascaded name v₂ w₂ el ps)
            name v₁ w₁ el ps) el ps name = some (v₂, w₂)) ∧
      (w₁ = w₂ →
        getWinner (add_declaration (add_declaration cascaded name v₁ w₁ el ps)
            name v₂ w₂ el ps) el ps name = some (v₂, w₂) ∧
        getWinner (add_declaration (add_declaration cascaded name v₂ w₂ el ps)
            name v₁ w₁ el ps) el ps name = some (v₁, w₁))) := by
  have hwin : ∀ (c : CascadedMap) (v : ValueList) (w : Weight),
      getWinner (add_declaration c name v w el ps) el ps name =
        match getWinner c el ps name with
        | none => some (v, w)
        | some (v0, w0) =>
            if weightLe w0 w then some (v, w) else some (v0, w0) := by
    intro c v w
    unfold getWinner add_declaration
    cases hprev : alGet ((alGet c (el, ps)).getD []) name with
    | none => simp [hprev, alGet_alSet_self]
    | some vw =>
        obtain ⟨v0, w0⟩ := vw
        by_cases hle : weightLe w0 w = true
        · simp [hprev, hle, alGet_alSet_self]
        · simp only [Bool.not_eq_true] at hle
          simp [hprev, hle, alGet_alSet_self]
  constructor
  · rw [hwin]
    cases hprev : getWinner cascaded el ps name with
    | none => simp
    | some vw =>
        obtain ⟨v0, w0⟩ := vw
        by_cases hle : weightLe w0 w₁ = true
        · simp [hle]
          exact ⟨v0, w0.1, w0.2, ⟨rfl, rfl⟩, hle⟩
        · rw [Bool.not_eq_true] at hle
          simp [hle]
          constructor
          · rintro ⟨h1, h2⟩
            rw [h2, weightLe_refl] at hle
            cases hle
          · rintro ⟨v, a, b, ⟨hv, hw⟩, hle2⟩
            rw [← hw, hle] at hle2
            cases hle2
  · intro hnone
    have h12 : getWinner (add_declaration cascaded name v₁ w₁ el ps) el ps name =
        some (v₁, w₁) := by rw [hwin, hnone]
    have h21 : getWinner (add_declaration cascaded name v₂ w₂ el ps) el ps name =
        some (v₂, w₂) := by rw [hwin, hnone]
    constructor
    · intro hstrict
      have h1le2 : weightLe w₁ w₂ = true := by
        rcases weightLe_total w₁ w₂ with h | h
        · exact h
        · rw [h] at hstrict; cases hstrict
      constructor
      · rw [hwin, h12]; simp [h1le2]
      · rw [hwin, h21]; simp [hstrict]
    · intro heq
      subst heq
      constructor
      · rw [hwin, h12]; simp [weightLe_refl]
      · rw [hwin, h21]; simp [weightLe_refl]

/-- C1 witness: concrete two-declaration run where the second declaration
has strictly higher specificity at equal precedence order check. -/
theorem add_declaration_weight_order_witness :
    weightLe (3, Specificity.selSpec 0 0 1 0) (3, Specificity.selSpec 0 0 0 1) =
        false ∧
    getWinner [] (ElemRef.elem 0) none "color" = none ∧
    getWinner (add_declaration
        (add_declaration [] "color" ["red"] (3, Specificity.selSpec 0 0 0 1)
          (ElemRef.elem 0) none)
        "color" ["blue"] (3, Specificity.selSpec 0 0 1 0) (ElemRef.elem 0) none)
      (ElemRef.elem 0) none "color" =
      some (["blue"], (3, Specificity.selSpec 0 0 1 0)) := by
  refine ⟨by decide, rfl, ?_⟩
  exact (((add_declaration_weight_order [] "color" ["red"] ["blue"]
      (3, Specificity.selSpec 0 0 0 1) (3, Specificity.selSpec 0 0 1 0)
      (ElemRef.elem 0) none).2 rfl).1 (by decide)).2

/-- C6: `declaration_precedence` maps (origin, importance) to the fixed
5-level scale; `'user agent'` yields 1 for any importance. -/
theorem declaration_precedence_table :
    declaration_precedence "user agent" false = .ok (some 1) ∧
    declaration_precedence "user agent" true = .ok (some 1) ∧
    declaration_precedence "user" false = .ok (some 2) ∧
    declaration_precedence "author" false = .ok (some 3) ∧
    declaration_precedence "author" true = .ok (some 4) ∧
    declaration_precedence "user" true = .ok (some 5) :=
  ⟨rfl, rfl, rfl, rfl, rfl, rfl⟩

/-- C4: an unknown origin does NOT signal an error: the Python
`assert ValueError(...)` asserts a truthy exception object, so the call
silently returns `None` (here `.ok none`), not a precedence level and not
a raised error. -/
theorem declaration_precedence_unknown_origin_returns_none :
    declaration_precedence "banana" false = .ok none ∧
    declaration_precedence "banana" true = .ok none ∧
    declaration_precedence "" false = .ok none :=
  ⟨rfl, rfl, rfl⟩

/-- C7: `match_page_selector` expands supported page selectors per the
fixed table: no pseudo-class → all four page types at specificity 0,
`:left`/`:right` → the two matching types at specificity 1, `:first` →
the two first types at specificity 10. -/
theorem match_page_selector_table :
    match_page_selector "" =
      .ok [(.page, "left", 0), (.page, "right", 0),
           (.page, "first_left", 0), (.page, "first_right", 0)] ∧
    match_page_selector ":left" =
      .ok [(.page, "left", 1), (.page, "first_left", 1)] ∧
    match_page_selector ":right" =
      .ok [(.page, "right", 1), (.page, "first_right", 1)] ∧
    match_page_selector ":first" =
      .ok [(.page, "first_left", 10), (.page, "first_right", 10)] :=
  ⟨rfl, rfl, rfl, rfl⟩

/-- C3: an invalid selector in a style rule does make `match_selectors`
yield nothing (first conjunct), but an unsupported `@page` selector does
NOT merely log a warning: `PAGE_PSEUDOCLASS_SPECIFICITY[pseudo_class]` is
evaluated before the `page_types is not None` guard and raises `KeyError`
(second conjunct), which propagates out of `get_all_computed_styles`. -/
theorem match_page_selector_unsupported_raises :
    (∀ selector_list : List PySelector,
      (∃ s ∈ selector_list, s.compiled = none) →
        match_selectors selector_list = []) ∧
    match_page_selector ":last" = .error "KeyError: :last" := by
  constructor
  · intro sl ⟨s, hs, hc⟩
    have : sl.any (fun s => s.compiled.isNone) = true :=
      List.any_eq_true.2 ⟨s, hs, by rw [hc]; rfl⟩
    simp [match_selectors, this]
  · rfl

/-- C3 witness: a selector list with one valid and one invalid selector
yields no matches. -/
theorem match_page_selector_unsupported_raises_witness :
    (∃ s ∈ [PySelector.mk (some (none, [1, 2])) (Specificity.selSpec 0 0 0 1),
            PySelector.mk none (Specificity.selSpec 0 0 1 0)],
        s.compiled = none) ∧
    match_selectors
      [PySelector.mk (some (none, [1, 2])) (Specificity.selSpec 0 0 0 1),
       PySelector.mk none (Specificity.selSpec 0 0 1 0)] = [] := by
  refine ⟨⟨PySelector.mk none (Specificity.selSpec 0 0 1 0), by simp, rfl⟩, ?_⟩
  exact match_page_selector_unsupported_raises.1 _
    ⟨PySelector.mk none (Specificity.selSpec 0 0 1 0), by simp, rfl⟩

/-- C2: the inline style-attribute loop installs declarations under the
*leaked* `pseudo_type` binding, not under `(element, None)`: with the last
selector match having bound `pseudo_type` to `'before'`, an element's
`style="color: red"` lands on the pseudo key `(element, 'before')` (and
the key `(element, None)` stays empty); with no preceding match at all the
loop raises `UnboundLocalError`. -/
theorem style_attribute_uses_stale_pseudo_type :
    apply_style_attributes [] [(0, [("color", ["red"], false)])]
        (.ok (some "before")) =
      .ok [((ElemRef.elem 0, some "before"),
            [("color", (["red"], (3, Specificity.selSpec 1 0 0 0)))])] ∧
    getWinner [((ElemRef.elem 0, some "before"),
            [("color", (["red"], (3, Specificity.selSpec 1 0 0 0)))])]
        (ElemRef.elem 0) none "color" = none ∧
    apply_style_attributes [] [(0, [("color", ["red"], false)])]
        (.error "UnboundLocalError: pseudo_type") =
      .error "UnboundLocalError: pseudo_type" :=
  ⟨rfl, rfl, rfl⟩

/-! ## Computed styles

`computed_from_cascaded` (`weasy/css/__init__.py:361-401`) resolves the
`initial` / `inherit` keywords for every property of the fixed property
set and then delegates final value computation.  Three collaborators live
outside `src/` and are parameters of the embedding:

* `gsk` — `weasy.css.values.get_single_keyword`; modelled from the spec:
  it returns the keyword when the value list is a single keyword, `none`
  otherwise, so the embedding only assumes a function
  `ValueList → Option String`.
* `initial_values` / `inherited` — `weasy.css.properties.INITIAL_VALUES`
  and `INHERITED`; modelled from the spec as the "fixed property set"
  (property → initial value) and the "inherited set".
* `cv` — `weasy.css.computed_values.compute_values`; modelled from the
  spec: the external Computed-Value Calculator finalizes each property of
  the specified map (percentages, units, keyword normalization) from the
  element, the pseudo type and the property's specified value, so it is
  modelled as a per-property transformation applied to the specified map.
-/

abbrev SpecStyle := List (PropName × ValueList)

/-- The cascaded value map `dict((name, value) for name, (value, _) ...)`
built on `weasy/css/__init__.py:366-368`. -/
def cascadedValues (cascaded : Style) : SpecStyle :=
  cascaded.map fun p => (p.1, p.2.1)

/-- One iteration of the keyword-resolution loop
(`weasy/css/__init__.py:373-393`) for property `name` with initial value
`initial`.  `parent_style[name]` is a raising `dict[key]` lookup. -/
def resolve_property (gsk : ValueList → Option String)
    (inherited : List PropName) (parent_style : Option SpecStyle)
    (style : SpecStyle) (name : PropName) (initial : ValueList) :
    Except String SpecStyle :=
  let values := alGet style name
  let keyword : Option String :=
    match values with
    | none => if name ∈ inherited then some "inherit" else some "initial"
    | some vs => gsk vs
  let keyword :=
    if keyword = some "inherit" ∧ parent_style = none then some "initial"
    else keyword
  if keyword = some "initial" then .ok (alSet style name initial)
  else if keyword = some "inherit" then
    match parent_style with
    | some p =>
        match alGet p name with
        | some v => .ok (alSet style name v)
        | none => .error ("KeyError: " ++ name)
    | none => .error "TypeError: parent_style is None"
  else .ok style

/-- The specified-value map: cascaded values with `initial` / `inherit`
resolved over the whole fixed property set (the state of `style` at the
"`style` has specified values" comment, line 395). -/
def specified_from_cascaded (gsk : ValueList → Option String)
    (initial_values : List (PropName × ValueList)) (inherited : List PropName)
    (cascaded : Style) (parent_style : Option SpecStyle) :
    Except String SpecStyle :=
  initial_values.foldlM
    (fun st ni => resolve_property gsk inherited parent_style st ni.1 ni.2)
    (cascadedValues cascaded)

/-- Modelled from the spec: the external Computed-Value Calculator
(`computed_values.compute_values`, not under `src/`) finalizes each
property of the specified map in place. -/
def computeValuesStage (cv : ElemRef → Option String → PropName → ValueList → ValueList)
    (element : ElemRef) (pseudo_type : Option String) (style : SpecStyle) :
    SpecStyle :=
  style.map fun pr => (pr.1, cv element pseudo_type pr.1 pr.2)

/-- Embedding of `computed_from_cascaded`. -/
def computed_from_cascaded
    (cv : ElemRef → Option String → PropName → ValueList → ValueList)
    (gsk : ValueList → Option String)
    (initial_values : List (PropName × ValueList)) (inherited : List PropName)
    (element : ElemRef) (cascaded : Style) (parent_style : Option SpecStyle)
    (pseudo_type : Option String) : Except String SpecStyle := do
  let style ← specified_from_cascaded gsk initial_values inherited cascaded
    parent_style
  pure (computeValuesStage cv element pseudo_type style)

/-! ## set_computed_styles and get_all_computed_styles

The document is a rose tree of element ids; `document.dom.iter()` is its
pre-order traversal and `element.getparent()` the tree parent (passed to
`set_computed_styles` as the already-evaluated `getparent` result, which
the Python code only evaluates in the branch where neither the `'@page'`
test nor the `pseudo_type` test fired). -/

inductive DomTree where
  | node (id : Nat) (children : List DomTree)

mutual

def treeIds : DomTree → List Nat
  | .node id cs => id :: forestIds cs

def forestIds : List DomTree → List Nat
  | [] => []
  | t :: ts => treeIds t ++ forestIds ts

end

abbrev ComputedMap := List (PseudoKey × SpecStyle)

/-- Python truthiness of the `pseudo_type` value. -/
def pyTruthy : Option String → Bool
  | some s => decide (¬s = "")
  | none => false

/-- The `parent` chosen on `weasy/css/__init__.py:344-349`. -/
def parentRefOf (element : ElemRef) (pseudo_type : Option String)
    (getparent : Option Nat) : Option ElemRef :=
  if element = ElemRef.page then none
  else if pyTruthy pseudo_type then some element
  else getparent.map ElemRef.elem

/-- Embedding of `set_computed_styles` (`weasy/css/__init__.py:337-358`):
`computed_styles[parent, None]` is a raising `dict[key]` lookup. -/
def set_computed_styles
    (cv : ElemRef → Option String → PropName → ValueList → ValueList)
    (gsk : ValueList → Option String)
    (initial_values : List (PropName × ValueList)) (inherited : List PropName)
    (cascaded_styles : CascadedMap) (computed_styles : ComputedMap)
    (element : ElemRef) (pseudo_type : Option String)
    (getparent : Option Nat) : Except String ComputedMap := do
  let parent_style ← match parentRefOf element pseudo_type getparent with
    | none => pure (none : Option SpecStyle)
    | some par =>
        match alGet computed_styles (par, none) with
        | some s => pure (some s)
        | none => Except.error "KeyError: (parent, None) not computed"
  let cascaded := (alGet cascaded_styles (element, pseudo_type)).getD []
  let style ← computed_from_cascaded cv gsk initial_values inherited element
    cascaded parent_style pseudo_type
  pure (alSet computed_styles (element, pseudo_type) style)

mutual

/-- The first pass of `get_all_computed_styles` (lines 476-478): computed
styles for the document's elements, in tree order, parents first. -/
def computeTreePass
    (cv : ElemRef → Option String → PropName → ValueList → ValueList)
    (gsk : ValueList → Option String)
    (initial_values : List (PropName × ValueList)) (inherited : List PropName)
    (cascaded_styles : CascadedMap) (parent : Option Nat) :
    DomTree → ComputedMap → Except String ComputedMap
  | .node id cs, computed =>
      match set_computed_styles cv gsk initial_values inherited cascaded_styles
          computed (.elem id) none parent with
      | .error e => .error e
      | .ok computed2 =>
          computeForestPass cv gsk initial_values inherited cascaded_styles
            (some id) cs computed2

def computeForestPass
    (cv : ElemRef → Option String → PropName → ValueList → ValueList)
    (gsk : ValueList → Option String)
    (initial_values : List (PropName × ValueList)) (inherited : List PropName)
    (cascaded_styles : CascadedMap) (parent : Option Nat) :
    List DomTree → ComputedMap → Except String ComputedMap
  | [], computed => .ok computed
  | t :: ts, computed =>
      match computeTreePass cv gsk initial_values inherited cascaded_styles
          parent t computed with
      | .error e => .error e
      | .ok computed2 =>
          computeForestPass cv gsk initial_values inherited cascaded_styles
            parent ts computed2

end

/-- Embedding of the resolution phase of `get_all_computed_styles`
(`weasy/css/__init__.py:466-501`).  The cascade phase (stylesheet
collection, selector matching, declaration expansion — lines 412-464,
driven by the external parser/matcher collaborators) produced
`cascaded_styles`, which this function takes as input. -/
def get_all_computed_styles
    (cv : ElemRef → Option String → PropName → ValueList → ValueList)
    (gsk : ValueList → Option String)
    (initial_values : List (PropName × ValueList)) (inherited : List PropName)
    (document : DomTree) (cascaded_styles : CascadedMap) :
    Except String ComputedMap := do
  let computed ← computeTreePass cv gsk initial_values inherited
    cascaded_styles none document []
  let computed ← (alKeys cascaded_styles).foldlM
    (fun m k =>
      if pyTruthy k.2 ∧ k.1 ≠ ElemRef.page then
        set_computed_styles cv gsk initial_values inherited cascaded_styles m
          k.1 k.2 none
      else .ok m)
    computed
  ((PAGE_PSEUDOCLASS_TARGETS none).getD []).foldlM
    (fun m page_type =>
      set_computed_styles cv gsk initial_values inherited cascaded_styles m
        ElemRef.page (some page_type) none)
    computed

/-! ## Resolution-loop lemmas -/

theorem alGet_cascadedValues (c : Style) (n : PropName) :
    alGet (cascadedValues c) n = (alGet c n).map (fun vw => vw.1) := by
  induction c with
  | nil => simp [cascadedValues, alGet]
  | cons p c ih =>
      obtain ⟨k, vw⟩ := p
      by_cases h : k = n <;> simp [cascadedValues, alGet, h] at ih ⊢ <;>
        simpa using ih

theorem alGet_computeValuesStage
    (cv : ElemRef → Option String → PropName → ValueList → ValueList)
    (e : ElemRef) (pt : Option String) (s : SpecStyle) (n : PropName) :
    alGet (computeValuesStage cv e pt s) n = (alGet s n).map (cv e pt n) := by
  induction s with
  | nil => simp [computeValuesStage, alGet]
  | cons p s ih =>
      obtain ⟨k, v⟩ := p
      by_cases h : k = n <;> simp [computeValuesStage, alGet, h] at ih ⊢ <;>
        simpa using ih

/-- The value that one iteration of the resolution loop leaves stored for
its property, as a function of the property's current value. -/
def resolveOne (gsk : ValueList → Option String) (inherited : List PropName)
    (parent_style : Option SpecStyle) (cur : Option ValueList)
    (name : PropName) (initial : ValueList) : Option ValueList :=
  match cur with
  | none =>
      if name ∈ inherited then
        match parent_style with
        | some p => alGet p name
        | none => some initial
      else some initial
  | some vs =>
      if gsk vs = some "initial" then some initial
      else if gsk vs = some "inherit" then
        match parent_style with
        | some p => alGet p name
        | none => some initial
      else some vs

theorem resolveOne_isSome (gsk : ValueList → Option String)
    (inherited : List PropName) (parent_style : Option SpecStyle)
    (cur : Option ValueList) (name : PropName) (initial : ValueList)
    (hp : ∀ p, parent_style = some p → (alGet p name).isSome = true) :
    (resolveOne gsk inherited parent_style cur name initial).isSome = true := by
  cases cur with
  | none =>
      by_cases hi : name ∈ inherited
      · cases hps : parent_style with
        | none => simp [resolveOne, hi, hps]
        | some p => simpa [resolveOne, hi, hps] using hp p hps
      · simp [resolveOne, hi]
  | some vs =>
      by_cases h1 : gsk vs = some "initial"
      · simp [resolveOne, h1]
      · by_cases h2 : gsk vs = some "inherit"
        · cases hps : parent_style with
          | none => simp [resolveOne, h1, h2, hps]
          | some p => simpa [resolveOne, h1, h2, hps] using hp p hps
        · simp [resolveOne, h1, h2]

theorem resolve_property_char (gsk : ValueList → Option String)
    (inherited : List PropName) (parent_style : Option SpecStyle)
    (st : SpecStyle) (name : PropName) (initial : ValueList)
    (hp : ∀ p, parent_style = some p → (alGet p name).isSome = true) :
    ∃ st2, resolve_property gsk inherited parent_style st name initial =
        .ok st2 ∧
      alGet st2 name =
        resolveOne gsk inherited parent_style (alGet st name) name initial ∧
      ∀ m, m ≠ name → alGet st2 m = alGet st m := by
  have hii : ("inherit" : String) ≠ "initial" := by decide
  cases hcur : alGet st name with
  | none =>
      by_cases hi : name ∈ inherited
      · cases hps : parent_style with
        | none =>
            refine ⟨alSet st name initial, ?_, ?_, ?_⟩
            · simp [resolve_property, hcur, hi, hps]
            · simp [resolveOne, hi, hps, alGet_alSet_self]
            · intro m hm; exact alGet_alSet_of_ne st initial (Ne.symm hm)
        | some p =>
            obtain ⟨v, hv⟩ := Option.isSome_iff_exists.1 (hp p hps)
            refine ⟨alSet st name v, ?_, ?_, ?_⟩
            · simp [resolve_property, hcur, hi, hps, hii, hv]
            · simp [resolveOne, hi, hps, alGet_alSet_self, hv]
            · intro m hm; exact alGet_alSet_of_ne st v (Ne.symm hm)
      · refine ⟨alSet st name initial, ?_, ?_, ?_⟩
        · simp [resolve_property, hcur, hi]
        · simp [resolveOne, hi, alGet_alSet_self]
        · intro m hm; exact alGet_alSet_of_ne st initial (Ne.symm hm)
  | some vs =>
      by_cases h1 : gsk vs = some "initial"
      · refine ⟨alSet st name initial, ?_, ?_, ?_⟩
        · simp [resolve_property, hcur, h1, hii]
        · simp [resolveOne, h1, alGet_alSet_self]
        · intro m hm; exact alGet_alSet_of_ne st initial (Ne.symm hm)
      · by_cases h2 : gsk vs = some "inherit"
        · cases hps : parent_style with
          | none =>
              refine ⟨alSet st name initial, ?_, ?_, ?_⟩
              · simp [resolve_property, hcur, h1, h2, hps]
              · simp [resolveOne, h1, h2, hps, alGet_alSet_self]
              · intro m hm; exact alGet_alSet_of_ne st initial (Ne.symm hm)
          | some p =>
              obtain ⟨v, hv⟩ := Option.isSome_iff_exists.1 (hp p hps)
              refine ⟨alSet st name v, ?_, ?_, ?_⟩
              · simp [resolve_property, hcur, h1, h2, hps, hv]
              · simp [resolveOne, h1, h2, hps, alGet_alSet_self, hv]
              · intro m hm; exact alGet_alSet_of_ne st v (Ne.symm hm)
        · refine ⟨st, ?_, ?_, fun m _ => rfl⟩
          · simp [resolve_property, hcur, h1, h2]
          · simp [resolveOne, hcur, h1, h2]

theorem resolve_fold_char (gsk : ValueList → Option String)
    (inherited : List PropName) (parent_style : Option SpecStyle) :
    ∀ (iv : List (PropName × ValueList)) (st : SpecStyle),
    (iv.map Prod.fst).Nodup →
    (∀ p, parent_style = some p → ∀ ni ∈ iv, (alGet p ni.1).isSome = true) →
    ∃ st2,
      iv.foldlM
          (fun s ni => resolve_property gsk inherited parent_style s ni.1 ni.2)
          st = .ok st2 ∧
      (∀ ni ∈ iv, alGet st2 ni.1 =
        resolveOne gsk inherited parent_style (alGet st ni.1) ni.1 ni.2) ∧
      (∀ m, m ∉ iv.map Prod.fst → alGet st2 m = alGet st m) := by
  intro iv
  induction iv with
  | nil => exact fun st _ _ => ⟨st, rfl, by simp, fun m _ => rfl⟩
  | cons ni rest ih =>
      intro st hnodup hpar
      obtain ⟨n, i⟩ := ni
      simp only [List.map_cons, List.nodup_cons] at hnodup
      obtain ⟨hn, hrest⟩ := hnodup
      obtain ⟨st1, hok1, hget1, hframe1⟩ :=
        resolve_property_char gsk inherited parent_style st n i
          (fun p hp => hpar p hp (n, i) (by simp))
      obtain ⟨st2, hok2, hget2, hframe2⟩ :=
        ih st1 hrest (fun p hp ni2 h2 => hpar p hp ni2 (List.mem_cons_of_mem _ h2))
      refine ⟨st2, ?_, ?_, ?_⟩
      · simpa [List.foldlM, hok1] using hok2
      · intro ni2 h2
        rcases List.mem_cons.1 h2 with h2 | h2
        · subst h2
          rw [hframe2 n hn, hget1]
        · have hne : ni2.1 ≠ n :=
            fun he => hn (he ▸ List.mem_map_of_mem Prod.fst h2)
          rw [hget2 ni2 h2, hframe1 ni2.1 hne]
      · intro m hm
        simp only [List.map_cons, List.mem_cons] at hm
        push_neg at hm
        rw [hframe2 m (by simpa using hm.2), hframe1 m hm.1]

/-- A style has a value for every property of the fixed property set. -/
def CoversIV (initial_values : List (PropName × ValueList))
    (s : SpecStyle) : Prop :=
  ∀ ni ∈ initial_values, (alGet s ni.1).isSome = true

theorem specified_from_cascaded_char (gsk : ValueList → Option String)
    (initial_values : List (PropName × ValueList)) (inherited : List PropName)
    (cascaded : Style) (parent_style : Option SpecStyle)
    (hnodup : (initial_values.map Prod.fst).Nodup)
    (hpar : ∀ p, parent_style = some p → CoversIV initial_values p) :
    ∃ st2,
      specified_from_cascaded gsk initial_values inherited cascaded
          parent_style = .ok st2 ∧
      (∀ ni ∈ initial_values, alGet st2 ni.1 =
        resolveOne gsk inherited parent_style
          ((alGet cascaded ni.1).map (fun vw => vw.1)) ni.1 ni.2) ∧
      (∀ m, m ∉ initial_values.map Prod.fst →
        alGet st2 m = (alGet cascaded m).map (fun vw => vw.1)) ∧
      CoversIV initial_values st2 := by
  obtain ⟨st2, hok, hget, hframe⟩ :=
    resolve_fold_char gsk inherited parent_style initial_values
      (cascadedValues cascaded) hnodup hpar
  refine ⟨st2, hok, ?_, ?_, ?_⟩
  · intro ni h
    rw [hget ni h, alGet_cascadedValues]
  · intro m hm
    rw [hframe m hm, alGet_cascadedValues]
  · intro ni h
    rw [hget ni h, alGet_cascadedValues]
    exact resolveOne_isSome gsk inherited parent_style _ ni.1 ni.2
      (fun p hp => hpar p hp ni h)

theorem computed_from_cascaded_char
    (cv : ElemRef → Option String → PropName → ValueList → ValueList)
    (gsk : ValueList → Option String)
    (initial_values : List (PropName × ValueList)) (inherited : List PropName)
    (element : ElemRef) (cascaded : Style) (parent_style : Option SpecStyle)
    (pseudo_type : Option String)
    (hnodup : (initial_values.map Prod.fst).Nodup)
    (hpar : ∀ p, parent_style = some p → CoversIV initial_values p) :
    ∃ spec,
      specified_from_cascaded gsk initial_values inherited cascaded
          parent_style = .ok spec ∧
      computed_from_cascaded cv gsk initial_values inherited element cascaded
          parent_style pseudo_type =
        .ok (computeValuesStage cv element pseudo_type spec) ∧
      CoversIV initial_values
        (computeValuesStage cv element pseudo_type spec) := by
  obtain ⟨spec, hok, hget, hframe, hcov⟩ :=
    specified_from_cascaded_char gsk initial_values inherited cascaded
      parent_style hnodup hpar
  refine ⟨spec, hok, ?_, ?_⟩
  · simp [computed_from_cascaded, hok]
  · intro ni h
    rw [alGet_computeValuesStage]
    have := hcov ni h
    cases halg : alGet spec ni.1 with
    | none => rw [halg] at this; cases this
    | some v => simp [halg]

/-- Every style stored in a computed map covers the fixed property set. -/
def MapCovers (initial_values : List (PropName × ValueList))
    (m : ComputedMap) : Prop :=
  ∀ k s, alGet m k = some s → CoversIV initial_values s

theorem MapCovers_alSet {initial_values : List (PropName × ValueList)}
    {m : ComputedMap} {k : PseudoKey} {s : SpecStyle}
    (hm : MapCovers initial_values m) (hs : CoversIV initial_values s) :
    MapCovers initial_values (alSet m k s) := by
  intro k2 s2 h2
  by_cases hk : k = k2
  · subst hk
    rw [alGet_alSet_self] at h2
    exact (Option.some.inj h2) ▸ hs
  · rw [alGet_alSet_of_ne m s hk] at h2
    exact hm k2 s2 h2

theorem exists_alGet_of_mem_keys {κ α : Type} [DecidableEq κ]
    {m : List (κ × α)} {k : κ} (h : k ∈ alKeys m) : ∃ v, alGet m k = some v :=
  Option.isSome_iff_exists.1 ((alGet_isSome_iff m k).2 h)

theorem set_computed_styles_ok
    (cv : ElemRef → Option String → PropName → ValueList → ValueList)
    (gsk : ValueList → Option String)
    (iv : List (PropName × ValueList)) (inh : List PropName)
    (casc : CascadedMap) (m : ComputedMap) (element : ElemRef)
    (pt : Option String) (gp : Option Nat)
    (hnodup : (iv.map Prod.fst).Nodup)
    (hm : MapCovers iv m)
    (hpar : ∀ par, parentRefOf element pt gp = some par →
        (par, (none : Option String)) ∈ alKeys m) :
    ∃ style, set_computed_styles cv gsk iv inh casc m element pt gp =
        .ok (alSet m (element, pt) style) ∧ CoversIV iv style := by
  cases href : parentRefOf element pt gp with
  | none =>
      obtain ⟨spec, hspec, hcomp, hcov⟩ :=
        computed_from_cascaded_char cv gsk iv inh element
          ((alGet casc (element, pt)).getD []) none pt hnodup
          (fun p hp => by cases hp)
      exact ⟨computeValuesStage cv element pt spec,
        by simp [set_computed_styles, href, hcomp], hcov⟩
  | some par =>
      obtain ⟨s, hs⟩ := exists_alGet_of_mem_keys (hpar par href)
      obtain ⟨spec, hspec, hcomp, hcov⟩ :=
        computed_from_cascaded_char cv gsk iv inh element
          ((alGet casc (element, pt)).getD []) (some s) pt hnodup
          (fun p hp => (Option.some.inj hp) ▸ hm (par, none) s hs)
      exact ⟨computeValuesStage cv element pt spec,
        by simp [set_computed_styles, href, hs, hcomp], hcov⟩

theorem parentRef_elem_none {id : Nat} {parent : Option Nat} {par : ElemRef}
    (h : parentRefOf (ElemRef.elem id) none parent = some par) :
    ∃ q, parent = some q ∧ par = ElemRef.elem q := by
  cases parent with
  | none => simp [parentRefOf, pyTruthy] at h
  | some q =>
      simp only [parentRefOf, pyTruthy, Option.map_some] at h
      rw [if_neg (by simp)] at h
      exact ⟨q, rfl, (Option.some.inj h).symm⟩

theorem computeTreePass_ok
    (cv : ElemRef → Option String → PropName → ValueList → ValueList)
    (gsk : ValueList → Option String)
    (iv : List (PropName × ValueList)) (inh : List PropName)
    (casc : CascadedMap)
    (hnodup : (iv.map Prod.fst).Nodup) :
    ∀ (parent : Option Nat) (t : DomTree) (m : ComputedMap),
    MapCovers iv m → (alKeys m).Nodup →
    (∀ par, parent = some par → (ElemRef.elem par, (none : Option String)) ∈ alKeys m) →
    ∃ m2, computeTreePass cv gsk iv inh casc parent t m = .ok m2 ∧
      MapCovers iv m2 ∧ (alKeys m2).Nodup ∧
      (∀ k, k ∈ alKeys m2 ↔
        k ∈ alKeys m ∨ ∃ id, id ∈ treeIds t ∧ k = (ElemRef.elem id, none)) := by
  refine computeTreePass.induct cv gsk iv inh casc
    (fun parent t m =>
      MapCovers iv m → (alKeys m).Nodup →
      (∀ par, parent = some par →
        (ElemRef.elem par, (none : Option String)) ∈ alKeys m) →
      ∃ m2, computeTreePass cv gsk iv inh casc parent t m = .ok m2 ∧
        MapCovers iv m2 ∧ (alKeys m2).Nodup ∧
        (∀ k, k ∈ alKeys m2 ↔
          k ∈ alKeys m ∨ ∃ id, id ∈ treeIds t ∧ k = (ElemRef.elem id, none)))
    (fun parent ts m =>
      MapCovers iv m → (alKeys m).Nodup →
      (∀ par, parent = some par →
        (ElemRef.elem par, (none : Option String)) ∈ alKeys m) →
      ∃ m2, computeForestPass cv gsk iv inh casc parent ts m = .ok m2 ∧
        MapCovers iv m2 ∧ (alKeys m2).Nodup ∧
        (∀ k, k ∈ alKeys m2 ↔
          k ∈ alKeys m ∨ ∃ id, id ∈ forestIds ts ∧ k = (ElemRef.elem id, none)))
    ?_ ?_ ?_ ?_ ?_
  · -- set_computed_styles errored: impossible under the preconditions
    intro parent id cs m e herr hm hnd hp
    obtain ⟨style, hok, _⟩ :=
      set_computed_styles_ok cv gsk iv inh casc m (.elem id) none parent hnodup
        hm (by
          intro par hpar
          obtain ⟨q, rfl, rfl⟩ := parentRef_elem_none hpar
          exact hp q rfl)
    rw [hok] at herr
    cases herr
  · -- set_computed_styles succeeded, recurse into the children
    intro parent id cs m m1 hset ih hm hnd hp
    obtain ⟨style, hok, hcov⟩ :=
      set_computed_styles_ok cv gsk iv inh casc m (.elem id) none parent hnodup
        hm (by
          intro par hpar
          obtain ⟨q, rfl, rfl⟩ := parentRef_elem_none hpar
          exact hp q rfl)
    rw [hok] at hset
    obtain rfl : alSet m (ElemRef.elem id, none) style = m1 := Except.ok.inj hset
    obtain ⟨m2, hok2, hcov2, hnd2, hkeys2⟩ :=
      ih (MapCovers_alSet hm hcov) (alKeys_nodup_alSet _ _ _ hnd)
        (by
          intro par hpar
          rw [← Option.some.inj hpar]
          exact (mem_alKeys_alSet m (ElemRef.elem id, none) _ style).2 (Or.inr rfl))
    refine ⟨m2, ?_, hcov2, hnd2, ?_⟩
    · simpa [computeTreePass, hok] using hok2
    · intro k
      rw [hkeys2 k, mem_alKeys_alSet]
      simp only [treeIds]
      constructor
      · rintro ((h | h) | ⟨id2, h2, rfl⟩)
        · exact Or.inl h
        · exact Or.inr ⟨id, by simp, h⟩
        · exact Or.inr ⟨id2, by simp [h2], rfl⟩
      · rintro (h | ⟨id2, h2, rfl⟩)
        · exact Or.inl (Or.inl h)
        · rcases List.mem_cons.1 h2 with h2 | h2
          · exact Or.inl (Or.inr (by rw [h2]))
          · exact Or.inr ⟨id2, h2, rfl⟩
  · -- empty forest
    intro parent m hm hnd hp
    exact ⟨m, rfl, hm, hnd, by simp [forestIds]⟩
  · -- head subtree errored: impossible
    intro parent t ts m e herr ih hm hnd hp
    obtain ⟨m2, hok, _⟩ := ih hm hnd hp
    rw [hok] at herr
    cases herr
  · -- head subtree succeeded
    intro parent t ts m m1 hok1 ih1 ih2 hm hnd hp
    obtain ⟨m2, hok2, hcov2, hnd2, hkeys2⟩ := ih1 hm hnd hp
    rw [hok1] at hok2
    obtain rfl : m1 = m2 := Except.ok.inj hok2
    obtain ⟨m3, hok3, hcov3, hnd3, hkeys3⟩ :=
      ih2 hcov2 hnd2 (fun par hpar => (hkeys2 _).2 (Or.inl (hp par hpar)))
    refine ⟨m3, ?_, hcov3, hnd3, ?_⟩
    · simpa [computeForestPass, hok1] using hok3
    · intro k
      rw [hkeys3 k, hkeys2 k]
      simp only [forestIds, List.mem_append]
      constructor
      · rintro ((h | ⟨id2, h2, rfl⟩) | ⟨id2, h2, rfl⟩)
        · exact Or.inl h
        · exact Or.inr ⟨id2, Or.inl h2, rfl⟩
        · exact Or.inr ⟨id2, Or.inr h2, rfl⟩
      · rintro (h | ⟨id2, h2 | h2, rfl⟩)
        · exact Or.inl (Or.inl h)
        · exact Or.inl (Or.inr ⟨id2, h2, rfl⟩)
        · exact Or.inr ⟨id2, h2, rfl⟩

theorem pseudoPass_ok
    (cv : ElemRef → Option String → PropName → ValueList → ValueList)
    (gsk : ValueList → Option String)
    (iv : List (PropName × ValueList)) (inh : List PropName)
    (casc : CascadedMap)
    (hnodup : (iv.map Prod.fst).Nodup) :
    ∀ (ks : List PseudoKey) (m : ComputedMap),
    MapCovers iv m → (alKeys m).Nodup →
    (∀ k ∈ ks, pyTruthy k.2 = true → k.1 ≠ ElemRef.page →
      (k.1, (none : Option String)) ∈ alKeys m) →
    ∃ m2, ks.foldlM
        (fun m k =>
          if pyTruthy k.2 ∧ k.1 ≠ ElemRef.page then
            set_computed_styles cv gsk iv inh casc m k.1 k.2 none
          else .ok m) m = .ok m2 ∧
      MapCovers iv m2 ∧ (alKeys m2).Nodup ∧
      (∀ k, k ∈ alKeys m2 ↔ k ∈ alKeys m ∨
        (k ∈ ks ∧ pyTruthy k.2 = true ∧ k.1 ≠ ElemRef.page)) := by
  intro ks
  induction ks with
  | nil =>
      intro m hm hnd _
      exact ⟨m, rfl, hm, hnd, by simp⟩
  | cons k ks ih =>
      intro m hm hnd hpres
      by_cases hcond : pyTruthy k.2 = true ∧ k.1 ≠ ElemRef.page
      · have hmem : (k.1, (none : Option String)) ∈ alKeys m :=
          hpres k (by simp) hcond.1 hcond.2
        obtain ⟨style, hok, hcov⟩ :=
          set_computed_styles_ok cv gsk iv inh casc m k.1 k.2 none hnodup hm
            (by
              intro par hpar
              simp only [parentRefOf, if_neg hcond.2, hcond.1, if_true,
                if_pos] at hpar
              exact (Option.some.inj hpar) ▸ hmem)
        obtain ⟨m2, hok2, hcov2, hnd2, hkeys2⟩ :=
          ih (alSet m (k.1, k.2) style) (MapCovers_alSet hm hcov)
            (alKeys_nodup_alSet _ _ _ hnd)
            (fun k2 h2 ht hp =>
              (mem_alKeys_alSet m (k.1, k.2) _ style).2
                (Or.inl (hpres k2 (List.mem_cons_of_mem _ h2) ht hp)))
        refine ⟨m2, ?_, hcov2, hnd2, ?_⟩
        · simpa [List.foldlM, hcond, hok] using hok2
        · intro k2
          rw [hkeys2 k2, mem_alKeys_alSet]
          constructor
          · rintro ((h | rfl) | ⟨h2, hcond2⟩)
            · exact Or.inl h
            · exact Or.inr ⟨by simp, hcond.1, hcond.2⟩
            · exact Or.inr ⟨List.mem_cons_of_mem _ h2, hcond2⟩
          · rintro (h | ⟨h2, hcond2⟩)
            · exact Or.inl (Or.inl h)
            · rcases List.mem_cons.1 h2 with h2 | h2
              · exact Or.inl (Or.inr h2)
              · exact Or.inr ⟨h2, hcond2⟩
      · obtain ⟨m2, hok2, hcov2, hnd2, hkeys2⟩ :=
          ih m hm hnd
            (fun k2 h2 ht hp => hpres k2 (List.mem_cons_of_mem _ h2) ht hp)
        refine ⟨m2, ?_, hcov2, hnd2, ?_⟩
        · simpa [List.foldlM, hcond] using hok2
        · intro k2
          rw [hkeys2 k2]
          constructor
          · rintro (h | ⟨h2, hcond2⟩)
            · exact Or.inl h
            · exact Or.inr ⟨List.mem_cons_of_mem _ h2, hcond2⟩
          · rintro (h | ⟨h2, hcond2⟩)
            · exact Or.inl h
            · rcases List.mem_cons.1 h2 with h2 | h2
              · exact absurd (h2 ▸ ⟨hcond2.1, hcond2.2⟩) hcond
              · exact Or.inr ⟨h2, hcond2⟩

theorem pagePass_ok
    (cv : ElemRef → Option String → PropName → ValueList → ValueList)
    (gsk : ValueList → Option String)
    (iv : List (PropName × ValueList)) (inh : List PropName)
    (casc : CascadedMap)
    (hnodup : (iv.map Prod.fst).Nodup) :
    ∀ (pts : List String) (m : ComputedMap), pts.Nodup →
    MapCovers iv m → (alKeys m).Nodup →
    ∃ m2, pts.foldlM
        (fun m page_type =>
          set_computed_styles cv gsk iv inh casc m ElemRef.page
            (some page_type) none) m = .ok m2 ∧
      MapCovers iv m2 ∧ (alKeys m2).Nodup ∧
      (∀ k, k ∈ alKeys m2 ↔ k ∈ alKeys m ∨
        ∃ pt ∈ pts, k = (ElemRef.page, some pt)) ∧
      (∀ pt ∈ pts, ∃ spec,
        specified_from_cascaded gsk iv inh
            ((alGet casc (ElemRef.page, some pt)).getD []) none = .ok spec ∧
        alGet m2 (ElemRef.page, some pt) =
          some (computeValuesStage cv ElemRef.page (some pt) spec)) ∧
      (∀ k, (∀ pt ∈ pts, k ≠ (ElemRef.page, some pt)) →
        alGet m2 k = alGet m k) := by
  intro pts
  induction pts with
  | nil =>
      intro m _ hm hnd
      exact ⟨m, rfl, hm, hnd, by simp, by simp, fun k _ => rfl⟩
  | cons pt pts ih =>
      intro m hptsnd hm hnd
      simp only [List.nodup_cons] at hptsnd
      obtain ⟨spec, hspec, hcomp, hcov⟩ :=
        computed_from_cascaded_char cv gsk iv inh ElemRef.page
          ((alGet casc (ElemRef.page, some pt)).getD []) none (some pt) hnodup
          (fun p hp => by cases hp)
      have hset : set_computed_styles cv gsk iv inh casc m ElemRef.page
          (some pt) none =
          .ok (alSet m (ElemRef.page, some pt)
            (computeValuesStage cv ElemRef.page (some pt) spec)) := by
        simp [set_computed_styles, parentRefOf, hcomp]
      obtain ⟨m2, hok2, hcov2, hnd2, hkeys2, hstored2, hframe2⟩ :=
        ih (alSet m (ElemRef.page, some pt)
            (computeValuesStage cv ElemRef.page (some pt) spec)) hptsnd.2
          (MapCovers_alSet hm hcov) (alKeys_nodup_alSet _ _ _ hnd)
      refine ⟨m2, ?_, hcov2, hnd2, ?_, ?_, ?_⟩
      · simpa [List.foldlM, hset] using hok2
      · intro k
        rw [hkeys2 k, mem_alKeys_alSet]
        constructor
        · rintro ((h | rfl) | ⟨pt2, h2, rfl⟩)
          · exact Or.inl h
          · exact Or.inr ⟨pt, by simp, rfl⟩
          · exact Or.inr ⟨pt2, List.mem_cons_of_mem _ h2, rfl⟩
        · rintro (h | ⟨pt2, h2, rfl⟩)
          · exact Or.inl (Or.inl h)
          · rcases List.mem_cons.1 h2 with h2 | h2
            · exact Or.inl (Or.inr (by rw [h2]))
            · exact Or.inr ⟨pt2, h2, rfl⟩
      · intro pt2 h2
        rcases List.mem_cons.1 h2 with h2 | h2
        · subst h2
          refine ⟨spec, hspec, ?_⟩
          rw [hframe2 _ (by
            intro pt3 h3 he
            rw [Prod.mk.injEq] at he
            exact hptsnd.1 (by rw [Option.some.inj he.2]; exact h3))]
          exact alGet_alSet_self m _ _
        · exact hstored2 pt2 h2
      · intro k hk
        rw [hframe2 k (fun pt2 h2 => hk pt2 (List.mem_cons_of_mem _ h2))]
        exact alGet_alSet_of_ne m _ (fun he => hk pt (by simp) he.symm)

theorem get_all_computed_styles_ok
    (cv : ElemRef → Option String → PropName → ValueList → ValueList)
    (gsk : ValueList → Option String)
    (iv : List (PropName × ValueList)) (inh : List PropName)
    (document : DomTree) (casc : CascadedMap)
    (hnodup : (iv.map Prod.fst).Nodup)
    (hcasc : ∀ k ∈ alKeys casc, pyTruthy k.2 = true → k.1 ≠ ElemRef.page →
      ∃ id ∈ treeIds document, k.1 = ElemRef.elem id) :
    ∃ m, get_all_computed_styles cv gsk iv inh document casc = .ok m ∧
      (alKeys m).Nodup ∧
      (∀ k, k ∈ alKeys m ↔
        (∃ id ∈ treeIds document, k = (ElemRef.elem id, none)) ∨
        (k ∈ alKeys casc ∧ pyTruthy k.2 = true ∧ k.1 ≠ ElemRef.page) ∨
        (∃ pt ∈ ["left", "right", "first_left", "first_right"],
          k = (ElemRef.page, some pt))) ∧
      (∀ pt ∈ ["left", "right", "first_left", "first_right"], ∃ spec,
        specified_from_cascaded gsk iv inh
            ((alGet casc (ElemRef.page, some pt)).getD []) none = .ok spec ∧
        alGet m (ElemRef.page, some pt) =
          some (computeValuesStage cv ElemRef.page (some pt) spec)) := by
  obtain ⟨m1, hok1, hcov1, hnd1, hkeys1⟩ :=
    computeTreePass_ok cv gsk iv inh casc hnodup none document []
      (fun k s h => by cases h) (by simp [alKeys])
      (fun par h => by cases h)
  obtain ⟨m2, hok2, hcov2, hnd2, hkeys2⟩ :=
    pseudoPass_ok cv gsk iv inh casc hnodup (alKeys casc) m1 hcov1 hnd1
      (fun k hk ht hp => by
        obtain ⟨id, hmem, hid⟩ := hcasc k hk ht hp
        rw [hid]
        exact (hkeys1 _).2 (Or.inr ⟨id, hmem, rfl⟩))
  obtain ⟨m3, hok3, hcov3, hnd3, hkeys3, hstored3, hframe3⟩ :=
    pagePass_ok cv gsk iv inh casc hnodup
      ["left", "right", "first_left", "first_right"] m2 (by decide) hcov2 hnd2
  refine ⟨m3, ?_, hnd3, ?_, fun pt hpt => hstored3 pt hpt⟩
  · simp only [get_all_computed_styles]
    rw [hok1]
    simp only [Bind.bind, Except.bind]
    rw [hok2]
    simpa [PAGE_PSEUDOCLASS_TARGETS] using hok3
  · intro k
    rw [hkeys3 k, hkeys2 k, hkeys1 k]
    simp only [alKeys, List.not_mem_nil, false_or]
    exact or_assoc

/-! ## Claim theorems: computed styles -/

/-- C5: `computed_from_cascaded` returns a style with a value for every
property of the fixed property set; a property with no cascaded value
defaults to `inherit` when in the inherited set and `initial` otherwise;
`initial` resolves to the property's initial value; `inherit` resolves to
the parent's computed value, falling back to the initial value when there
is no parent style. -/
theorem computed_from_cascaded_resolution
    (cv : ElemRef → Option String → PropName → ValueList → ValueList)
    (gsk : ValueList → Option String)
    (iv : List (PropName × ValueList)) (inh : List PropName)
    (element : ElemRef) (cascaded : Style) (parent_style : Option SpecStyle)
    (pseudo_type : Option String)
    (hnodup : (iv.map Prod.fst).Nodup)
    (hpar : ∀ p, parent_style = some p → ∀ ni ∈ iv,
      (alGet p ni.1).isSome = true) :
    ∃ spec,
      specified_from_cascaded gsk iv inh cascaded parent_style = .ok spec ∧
      computed_from_cascaded cv gsk iv inh element cascaded parent_style
          pseudo_type = .ok (computeValuesStage cv element pseudo_type spec) ∧
      (∀ ni ∈ iv, (alGet (computeValuesStage cv element pseudo_type spec)
          ni.1).isSome = true) ∧
      (∀ ni ∈ iv,
        (alGet cascaded ni.1 = none → ni.1 ∉ inh →
          alGet spec ni.1 = some ni.2) ∧
        (alGet cascaded ni.1 = none → ni.1 ∈ inh → parent_style = none →
          alGet spec ni.1 = some ni.2) ∧
        (∀ p, alGet cascaded ni.1 = none → ni.1 ∈ inh →
          parent_style = some p → alGet spec ni.1 = alGet p ni.1) ∧
        (∀ vsw, alGet cascaded ni.1 = some vsw → gsk vsw.1 = some "initial" →
          alGet spec ni.1 = some ni.2) ∧
        (∀ vsw p, alGet cascaded ni.1 = some vsw →
          gsk vsw.1 = some "inherit" → parent_style = some p →
          alGet spec ni.1 = alGet p ni.1) ∧
        (∀ vsw, alGet cascaded ni.1 = some vsw →
          gsk vsw.1 = some "inherit" → parent_style = none →
          alGet spec ni.1 = some ni.2)) := by
  obtain ⟨spec, hspec, hcomp, hcov⟩ :=
    computed_from_cascaded_char cv gsk iv inh element cascaded parent_style
      pseudo_type hnodup hpar
  obtain ⟨spec2, hspec2, hget2, _, _⟩ :=
    specified_from_cascaded_char gsk iv inh cascaded parent_style hnodup hpar
  rw [hspec] at hspec2
  obtain rfl : spec = spec2 := Except.ok.inj hspec2
  refine ⟨spec, hspec, hcomp, hcov, ?_⟩
  intro ni hni
  have hres := hget2 ni hni
  have hii : ¬(some "inherit" = some ("initial" : String)) := by decide
  refine ⟨?_, ?_, ?_, ?_, ?_, ?_⟩
  · intro hc hinh
    rw [hres, hc]
    simp [resolveOne, hinh]
  · intro hc hinh hp
    rw [hres, hc, hp]
    simp [resolveOne, hinh]
  · intro p hc hinh hp
    rw [hres, hc, hp]
    simp [resolveOne, hinh]
  · intro vsw hc hkw
    rw [hres, hc]
    simp [resolveOne, hkw]
  · intro vsw p hc hkw hp
    rw [hres, hc, hp]
    simp [resolveOne, hkw, hii]
  · intro vsw hc hkw hp
    rw [hres, hc, hp]
    simp [resolveOne, hkw, hii]

/-- C5 witness: a concrete property set with one inherited property, one
cascaded `inherit` keyword and a parent style. -/
theorem computed_from_cascaded_resolution_witness :
    (((["color", "margin-top"].map id).Nodup) ∧
      ([(("color" : PropName), (["black"] : ValueList)),
        ("margin-top", ["zero"])].map Prod.fst).Nodup) ∧
    (∃ spec,
      specified_from_cascaded (fun vs => match vs with
          | [v] => some v
          | _ => none)
        [("color", ["black"]), ("margin-top", ["zero"])] ["color"]
        [("margin-top", (["inherit"], ((3 : Nat), Specificity.selSpec 1 0 0 0)))]
        (some [("color", ["blue"]), ("margin-top", ["five"])]) = .ok spec ∧
      computed_from_cascaded (fun _ _ _ v => v) (fun vs => match vs with
          | [v] => some v
          | _ => none)
        [("color", ["black"]), ("margin-top", ["zero"])] ["color"]
        (ElemRef.elem 0)
        [("margin-top", (["inherit"], ((3 : Nat), Specificity.selSpec 1 0 0 0)))]
        (some [("color", ["blue"]), ("margin-top", ["five"])]) none =
        .ok (computeValuesStage (fun _ _ _ v => v) (ElemRef.elem 0) none
          spec) ∧
      (∀ ni ∈ [(("color" : PropName), (["black"] : ValueList)),
          ("margin-top", ["zero"])],
        (alGet (computeValuesStage (fun _ _ _ v => v) (ElemRef.elem 0) none
          spec) ni.1).isSome = true) ∧
      (∀ ni ∈ [(("color" : PropName), (["black"] : ValueList)),
          ("margin-top", ["zero"])],
        (alGet [(("margin-top" : PropName), ((["inherit"] : ValueList),
              ((3 : Nat), Specificity.selSpec 1 0 0 0)))] ni.1 = none →
          ni.1 ∉ ["color"] → alGet spec ni.1 = some ni.2) ∧
        (alGet [("margin-top", (["inherit"], ((3 : Nat),
              Specificity.selSpec 1 0 0 0)))] ni.1 = none →
          ni.1 ∈ ["color"] →
          (some [(("color" : PropName), (["blue"] : ValueList)),
            ("margin-top", ["five"])] : Option SpecStyle) = none →
          alGet spec ni.1 = some ni.2) ∧
        (∀ p, alGet [("margin-top", (["inherit"], ((3 : Nat),
              Specificity.selSpec 1 0 0 0)))] ni.1 = none →
          ni.1 ∈ ["color"] →
          (some [(("color" : PropName), (["blue"] : ValueList)),
            ("margin-top", ["five"])] : Option SpecStyle) = some p →
          alGet spec ni.1 = alGet p ni.1) ∧
        (∀ vsw, alGet [("margin-top", (["inherit"], ((3 : Nat),
              Specificity.selSpec 1 0 0 0)))] ni.1 = some vsw →
          (match vsw.1 with
            | [v] => some v
            | _ => none) = some "initial" →
          alGet spec ni.1 = some ni.2) ∧
        (∀ vsw p, alGet [("margin-top", (["inherit"], ((3 : Nat),
              Specificity.selSpec 1 0 0 0)))] ni.1 = some vsw →
          (match vsw.1 with
            | [v] => some v
            | _ => none) = some "inherit" →
          (some [(("color" : PropName), (["blue"] : ValueList)),
            ("margin-top", ["five"])] : Option SpecStyle) = some p →
          alGet spec ni.1 = alGet p ni.1) ∧
        (∀ vsw, alGet [("margin-top", (["inherit"], ((3 : Nat),
              Specificity.selSpec 1 0 0 0)))] ni.1 = some vsw →
          (match vsw.1 with
            | [v] => some v
            | _ => none) = some "inherit" →
          (some [(("color" : PropName), (["blue"] : ValueList)),
            ("margin-top", ["five"])] : Option SpecStyle) = none →
          alGet spec ni.1 = some ni.2))) := by
  refine ⟨⟨by decide, by decide⟩, ?_⟩
  exact computed_from_cascaded_resolution (fun _ _ _ v => v)
    (fun vs => match vs with
      | [v] => some v
      | _ => none)
    [("color", ["black"]), ("margin-top", ["zero"])] ["color"]
    (ElemRef.elem 0)
    [("margin-top", (["inherit"], ((3 : Nat), Specificity.selSpec 1 0 0 0)))]
    (some [("color", ["blue"]), ("margin-top", ["five"])]) none
    (by decide)
    (by
      intro p hp
      cases hp
      decide)

/-- C8: `get_all_computed_styles` always produces exactly four `'@page'`
entries, one per page type, present even with no cascaded `@page`
declarations, each resolved with no parent style so that properties with
no cascaded value (inherited ones included) fall back to their initial
values. -/
theorem get_all_computed_styles_four_page_styles
    (cv : ElemRef → Option String → PropName → ValueList → ValueList)
    (gsk : ValueList → Option String)
    (iv : List (PropName × ValueList)) (inh : List PropName)
    (document : DomTree) (casc : CascadedMap)
    (hnodup : (iv.map Prod.fst).Nodup)
    (hcasc : ∀ k ∈ alKeys casc, pyTruthy k.2 = true → k.1 ≠ ElemRef.page →
      ∃ id ∈ treeIds document, k.1 = ElemRef.elem id) :
    ∃ m, get_all_computed_styles cv gsk iv inh document casc = .ok m ∧
      ((alKeys m).filter fun k => decide (k.1 = ElemRef.page)).length = 4 ∧
      (∀ pt ∈ ["left", "right", "first_left", "first_right"],
        (ElemRef.page, some pt) ∈ alKeys m) ∧
      (∀ sp, (ElemRef.page, sp) ∈ alKeys m →
        ∃ pt ∈ ["left", "right", "first_left", "first_right"],
          sp = some pt) ∧
      (∀ pt ∈ ["left", "right", "first_left", "first_right"], ∃ spec,
        computed_from_cascaded cv gsk iv inh ElemRef.page
            ((alGet casc (ElemRef.page, some pt)).getD []) none (some pt) =
          .ok (computeValuesStage cv ElemRef.page (some pt) spec) ∧
        alGet m (ElemRef.page, some pt) =
          some (computeValuesStage cv ElemRef.page (some pt) spec) ∧
        ∀ ni ∈ iv,
          alGet ((alGet casc (ElemRef.page, some pt)).getD []) ni.1 = none →
          alGet spec ni.1 = some ni.2) := by
  obtain ⟨m, hok, hnd, hkeys, hstored⟩ :=
    get_all_computed_styles_ok cv gsk iv inh document casc hnodup hcasc
  have hmem : ∀ pt ∈ ["left", "right", "first_left", "first_right"],
      (ElemRef.page, some pt) ∈ alKeys m :=
    fun pt hpt => (hkeys _).2 (Or.inr (Or.inr ⟨pt, hpt, rfl⟩))
  have honly : ∀ sp, (ElemRef.page, sp) ∈ alKeys m →
      ∃ pt ∈ ["left", "right", "first_left", "first_right"],
        sp = some pt := by
    intro sp hsp
    rcases (hkeys _).1 hsp with ⟨id, _, he⟩ | ⟨_, _, hp⟩ | ⟨pt, hpt, he⟩
    · cases he
    · exact absurd rfl hp
    · exact ⟨pt, hpt, (Prod.mk.injEq .. ▸ he).2⟩
  refine ⟨m, hok, ?_, hmem, honly, ?_⟩
  · have hperm : List.Perm
        ((alKeys m).filter (fun k => decide (k.1 = ElemRef.page)))
        [(ElemRef.page, some "left"), (ElemRef.page, some "right"),
         (ElemRef.page, some "first_left"),
         (ElemRef.page, some "first_right")] := by
      rw [List.perm_ext_iff_of_nodup (hnd.filter _) (by decide)]
      intro a
      rw [List.mem_filter]
      constructor
      · rintro ⟨ha, hf⟩
        obtain ⟨a1, a2⟩ := a
        have ha1 : a1 = ElemRef.page := of_decide_eq_true hf
        subst ha1
        obtain ⟨pt, hpt, rfl⟩ := honly a2 ha
        simp only [List.mem_cons, List.not_mem_nil, or_false] at hpt
        rcases hpt with rfl | rfl | rfl | rfl <;> simp
      · intro ha
        simp only [List.mem_cons, List.not_mem_nil, or_false] at ha
        rcases ha with rfl | rfl | rfl | rfl
        all_goals
          exact ⟨(hkeys _).2 (Or.inr (Or.inr ⟨_, by simp, rfl⟩)), by decide⟩
    rw [hperm.length_eq]
    rfl
  · intro pt hpt
    obtain ⟨spec, hspec, hget⟩ := hstored pt hpt
    obtain ⟨spec2, hspec2, hget2, _, _⟩ :=
      specified_from_cascaded_char gsk iv inh
        ((alGet casc (ElemRef.page, some pt)).getD []) none hnodup
        (fun p hp => by cases hp)
    rw [hspec] at hspec2
    obtain rfl : spec = spec2 := Except.ok.inj hspec2
    refine ⟨spec, by simp [computed_from_cascaded, hspec], hget, ?_⟩
    intro ni hni hc
    rw [hget2 ni hni, hc]
    by_cases hinh : ni.1 ∈ inh <;> simp [resolveOne, hinh]

/-- C10: the key set of the map returned by `get_all_computed_styles` is
exactly `(element, None)` for every document element, plus pseudo-element
keys that received at least one cascaded declaration, plus the four
`('@page', page_type)` keys — nothing else. -/
theorem get_all_computed_styles_key_set
    (cv : ElemRef → Option String → PropName → ValueList → ValueList)
    (gsk : ValueList → Option String)
    (iv : List (PropName × ValueList)) (inh : List PropName)
    (document : DomTree) (casc : CascadedMap)
    (hnodup : (iv.map Prod.fst).Nodup)
    (hcasc : ∀ k ∈ alKeys casc, pyTruthy k.2 = true → k.1 ≠ ElemRef.page →
      ∃ id ∈ treeIds document, k.1 = ElemRef.elem id)
    (hnoempty : ∀ k ∈ alKeys casc, k.2 ≠ some "") :
    ∃ m, get_all_computed_styles cv gsk iv inh document casc = .ok m ∧
      ∀ k, k ∈ alKeys m ↔
        (∃ id ∈ treeIds document, k = (ElemRef.elem id, none)) ∨
        (k ∈ alKeys casc ∧ k.2 ≠ none ∧ k.1 ≠ ElemRef.page) ∨
        (∃ pt ∈ ["left", "right", "first_left", "first_right"],
          k = (ElemRef.page, some pt)) := by
  obtain ⟨m, hok, hnd, hkeys, _⟩ :=
    get_all_computed_styles_ok cv gsk iv inh document casc hnodup hcasc
  refine ⟨m, hok, ?_⟩
  intro k
  rw [hkeys k]
  constructor
  · rintro (h | ⟨hk, ht, hp⟩ | h)
    · exact Or.inl h
    · refine Or.inr (Or.inl ⟨hk, ?_, hp⟩)
      cases hsp : k.2 with
      | none => rw [hsp] at ht; cases ht
      | some s => simp
    · exact Or.inr (Or.inr h)
  · rintro (h | ⟨hk, ht, hp⟩ | h)
    · exact Or.inl h
    · refine Or.inr (Or.inl ⟨hk, ?_, hp⟩)
      cases hsp : k.2 with
      | none => exact absurd hsp ht
      | some s =>
          have hne : s ≠ "" := by
            intro he
            exact hnoempty k hk (by rw [hsp, he])
          simp [pyTruthy, hne]
    · exact Or.inr (Or.inr h)

/-! Concrete collaborators and inputs used by the witnesses of the
`get_all_computed_styles` theorems. -/

def witnessCv : ElemRef → Option String → PropName → ValueList → ValueList :=
  fun _ _ _ v => v

def witnessGsk : ValueList → Option String := fun vs =>
  match vs with
  | [v] => some v
  | _ => none

def witnessIv : List (PropName × ValueList) :=
  [("margin-top", ["zero"]), ("color", ["black"])]

def witnessInh : List PropName := ["color"]

def witnessDoc : DomTree := .node 0 [.node 1 [], .node 2 []]

def witnessCasc : CascadedMap :=
  [((ElemRef.elem 2, some "after"),
    [("margin-top", (["one"], ((4 : Nat), Specificity.selSpec 0 1 0 0)))]),
   ((ElemRef.page, some "left"),
    [("margin-top", (["ten"], ((3 : Nat), Specificity.pageSpec 1)))])]

/-- C8 witness: a concrete document and cascaded map (with one
pseudo-element key and one `@page` key) yield exactly four `@page`
entries. -/
theorem get_all_computed_styles_four_page_styles_witness :
    ((witnessIv.map Prod.fst).Nodup ∧
      (∀ k ∈ alKeys witnessCasc, pyTruthy k.2 = true → k.1 ≠ ElemRef.page →
        ∃ id ∈ treeIds witnessDoc, k.1 = ElemRef.elem id)) ∧
    ∃ m, get_all_computed_styles witnessCv witnessGsk witnessIv witnessInh
        witnessDoc witnessCasc = .ok m ∧
      ((alKeys m).filter fun k => decide (k.1 = ElemRef.page)).length = 4 ∧
      ∀ pt ∈ ["left", "right", "first_left", "first_right"],
        (ElemRef.page, some pt) ∈ alKeys m := by
  refine ⟨⟨by decide, by decide⟩, ?_⟩
  obtain ⟨m, h1, h2, h3, _⟩ :=
    get_all_computed_styles_four_page_styles witnessCv witnessGsk witnessIv
      witnessInh witnessDoc witnessCasc (by decide) (by decide)
  exact ⟨m, h1, h2, h3⟩

/-- C10 witness: the key set for the same concrete inputs. -/
theorem get_all_computed_styles_key_set_witness :
    ((witnessIv.map Prod.fst).Nodup ∧
      (∀ k ∈ alKeys witnessCasc, pyTruthy k.2 = true → k.1 ≠ ElemRef.page →
        ∃ id ∈ treeIds witnessDoc, k.1 = ElemRef.elem id) ∧
      (∀ k ∈ alKeys witnessCasc, k.2 ≠ some "")) ∧
    ∃ m, get_all_computed_styles witnessCv witnessGsk witnessIv witnessInh
        witnessDoc witnessCasc = .ok m ∧
      ∀ k, k ∈ alKeys m ↔
        (∃ id ∈ treeIds witnessDoc, k = (ElemRef.elem id, none)) ∨
        (k ∈ alKeys witnessCasc ∧ k.2 ≠ none ∧ k.1 ≠ ElemRef.page) ∨
        (∃ pt ∈ ["left", "right", "first_left", "first_right"],
          k = (ElemRef.page, some pt)) := by
  refine ⟨⟨by decide, by decide, by decide⟩, ?_⟩
  exact get_all_computed_styles_key_set witnessCv witnessGsk witnessIv
    witnessInh witnessDoc witnessCasc (by decide) (by decide) (by decide)

/-! ## Box trees and the normalization passes

Modelled from the spec: the box data model (section 3) and the two
normalization passes `inline_in_block` (section 4.5) and `block_in_inline`
(section 4.6) live in `weasy.formatting_structure.build`, which is not
under `src/`; only its tests (`weasy/tests/test_boxes.py`) are.  The
definitions below follow the spec's wording — anonymous-box wrapping of
maximal inline runs, a single implicit line box for uniformly inline
children, and left-to-right splitting of inline ancestors around block
descendants with empty inline fragments preserved — and are checked below
against the exact expected trees of `test_inline_in_block` and
`test_block_in_inline`. -/

inductive Box where
  | textBox (tag : String) (s : String)
  | inlineReplaced (tag : String)
  | blockBox (tag : String) (children : List Box)
  | inlineBox (tag : String) (children : List Box)
  | inlineBlock (tag : String) (children : List Box)
  | lineBox (tag : String) (children : List Box)
  | anonBlock (tag : String) (children : List Box)

/-- Inline-level boxes: text, replaced, inline and inline-block boxes. -/
def isInlineLevel : Box → Bool
  | .textBox _ _ => true
  | .inlineReplaced _ => true
  | .inlineBox _ _ => true
  | .inlineBlock _ _ => true
  | _ => false

/-- Block-level boxes. -/
def isBlockLevel : Box → Bool
  | .blockBox _ _ => true
  | .anonBlock _ _ => true
  | _ => false

/-- Wrap the maximal runs of consecutive inline-level children of a mixed
block container: each pending run becomes one AnonymousBlockBox holding
one LineBox; other children are kept in place.  `run` is the pending run
of inline-level boxes. -/
def wrapRunsGo (t : String) (run : List Box) : List Box → List Box
  | [] => if run.isEmpty then [] else [.anonBlock t [.lineBox t run]]
  | c :: cs =>
      if isInlineLevel c then wrapRunsGo t (run ++ [c]) cs
      else
        (if run.isEmpty then [] else [Box.anonBlock t [Box.lineBox t run]]) ++
          c :: wrapRunsGo t [] cs

/-- Children of a block container after inline-in-block normalization:
no children stay none, uniformly inline-level children get one implicit
LineBox, mixed children get their inline runs wrapped. -/
def iibChildren (t : String) (cs : List Box) : List Box :=
  if cs.isEmpty then cs
  else if cs.all isInlineLevel then [.lineBox t cs]
  else wrapRunsGo t [] cs

mutual

/-- The inline-in-block pass (spec section 4.5), bottom-up. -/
def inline_in_block : Box → Box
  | .textBox t s => .textBox t s
  | .inlineReplaced t => .inlineReplaced t
  | .inlineBox t cs => .inlineBox t (iibList cs)
  | .lineBox t cs => .lineBox t (iibList cs)
  | .blockBox t cs => .blockBox t (iibChildren t (iibList cs))
  | .inlineBlock t cs => .inlineBlock t (iibChildren t (iibList cs))
  | .anonBlock t cs => .anonBlock t (iibChildren t (iibList cs))

def iibList : List Box → List Box
  | [] => []
  | c :: cs => inline_in_block c :: iibList cs

end

/-- One AnonymousBlockBox/LineBox pair holding a line fragment. -/
def wrapFrag (lt : String) (s : List Box) : Box :=
  .anonBlock lt [.lineBox lt s]

/-- Lay out the alternating sequence of block boxes and anonymous-block
fragments after a line box was split.  "Before" fragments are emitted only
when non-empty; the trailing fragment is always emitted. -/
def buildAltGo (lt : String) : Box → List Box → List (Box × List Box) →
    List Box
  | b, s, [] => [b, wrapFrag lt s]
  | b, s, (b2, s2) :: ps =>
      b :: (if s.isEmpty then [] else [wrapFrag lt s]) ++
        buildAltGo lt b2 s2 ps

def buildAlt (lt : String) (s0 : List Box) (p : Box × List Box)
    (ps : List (Box × List Box)) : List Box :=
  (if s0.isEmpty then [] else [wrapFrag lt s0]) ++ buildAltGo lt p.1 p.2 ps

/-- Chain the split fragments of one inline box into the enclosing split:
every fragment (also an emptied one) is emitted as an inline box; the last
fragment joins the content following the inline box. -/
def stitch (t : String) : Box → List Box → List (Box × List Box) →
    List Box × List (Box × List Box) → List (Box × List Box)
  | b, seg, [], sp => (b, Box.inlineBox t seg :: sp.1) :: sp.2
  | b, seg, (b2, seg2) :: rest, sp =>
      (b, [Box.inlineBox t seg]) :: stitch t b2 seg2 rest sp

mutual

/-- The block-in-inline pass (spec section 4.6). -/
def block_in_inline : Box → Box
  | .textBox t s => .textBox t s
  | .inlineReplaced t => .inlineReplaced t
  | .inlineBox t cs => .inlineBox t (biiList cs)
  | .lineBox t cs => .lineBox t (biiList cs)
  | .blockBox t cs => .blockBox t (biiChildren cs)
  | .inlineBlock t cs => .inlineBlock t (biiChildren cs)
  | .anonBlock t cs => .anonBlock t (biiChildren cs)

def biiList : List Box → List Box
  | [] => []
  | c :: cs => block_in_inline c :: biiList cs

/-- Children of a block container: a sole LineBox child is scanned for
block-level descendants and split; other children are processed
recursively in place. -/
def biiChildren : List Box → List Box
  | [Box.lineBox lt lcs] =>
      match biiSplit lcs with
      | (s0, []) => [Box.lineBox lt s0]
      | (s0, p :: ps) => buildAlt lt s0 p ps
  | [] => []
  | c :: cs => block_in_inline c :: biiList cs

/-- Left-to-right scan of inline content: returns the leading run of
kept inline-level content and the list of (pulled-up block, following
run) pairs.  Nested inline boxes are split recursively; blocks found
inside them are pulled out through `stitch`. -/
def biiSplit : List Box → List Box × List (Box × List Box)
  | [] => ([], [])
  | c :: cs =>
      let rest := biiSplit cs
      match c with
      | .blockBox t ics =>
          ([], (Box.blockBox t (biiChildren ics), rest.1) :: rest.2)
      | .anonBlock t ics =>
          ([], (Box.anonBlock t (biiChildren ics), rest.1) :: rest.2)
      | .inlineBox t ics =>
          match biiSplit ics with
          | (s0, []) => (Box.inlineBox t s0 :: rest.1, rest.2)
          | (s0, (b1, seg1) :: ips) =>
              ([Box.inlineBox t s0], stitch t b1 seg1 ips rest)
      | c => (block_in_inline c :: rest.1, rest.2)

end

mutual

/-- No block-level box reachable through inline nesting (nothing for
`block_in_inline` to pull up). -/
def splitFree : Box → Bool
  | .blockBox _ _ => false
  | .anonBlock _ _ => false
  | .inlineBox _ cs => allSplitFree cs
  | _ => true

def allSplitFree : List Box → Bool
  | [] => true
  | c :: cs => splitFree c && allSplitFree cs

end

/-! The modelled passes are checked against the exact expected serialized
trees of `test_inline_in_block` and `test_block_in_inline` in
`src/weasy/tests/test_boxes.py`. -/

/-- The `<div>Hello, <em>World</em>!\n<p>Lipsum.</p></div>` box tree of
`test_inline_in_block` (lines 162-185), before normalization. -/
def testDivTree : Box :=
  .blockBox "div" [
    .textBox "div" "Hello, ",
    .inlineBox "em" [.textBox "em" "World"],
    .textBox "div" "!\n",
    .blockBox "p" [.textBox "p" "Lipsum."]]

/-- The expected tree of `test_inline_in_block`. -/
def testDivTreeExpected : Box :=
  .blockBox "div" [
    .anonBlock "div" [.lineBox "div" [
      .textBox "div" "Hello, ",
      .inlineBox "em" [.textBox "em" "World"],
      .textBox "div" "!\n"]],
    .blockBox "p" [.lineBox "p" [.textBox "p" "Lipsum."]]]

theorem inline_in_block_matches_test_boxes :
    inline_in_block testDivTree = testDivTreeExpected ∧
    inline_in_block (inline_in_block testDivTree) = testDivTreeExpected :=
  ⟨rfl, rfl⟩

/-- The `p { display: inline-block }` subtree of `test_block_in_inline`
(lines 188-262), after `inline_in_block`. -/
def testPInlineBlock : Box :=
  .inlineBlock "p" [.lineBox "p" [
    .textBox "p" "Lorem ",
    .inlineBox "em" [
      .textBox "em" "ipsum ",
      .inlineBox "strong" [
        .textBox "strong" "dolor ",
        .blockBox "span" [.lineBox "span" [.textBox "span" "sit"]],
        .textBox "strong" "\n    ",
        .blockBox "span" [.lineBox "span" [.textBox "span" "amet,"]]],
      .blockBox "span" [.lineBox "span" [
        .inlineBox "em" [.textBox "em" "consectetur", .blockBox "div" []]]]]]]

/-- The expected tree of `test_block_in_inline`. -/
def testPInlineBlockExpected : Box :=
  .inlineBlock "p" [
    .anonBlock "p" [.lineBox "p" [
      .textBox "p" "Lorem ",
      .inlineBox "em" [
        .textBox "em" "ipsum ",
        .inlineBox "strong" [.textBox "strong" "dolor "]]]],
    .blockBox "span" [.lineBox "span" [.textBox "span" "sit"]],
    .anonBlock "p" [.lineBox "p" [
      .inlineBox "em" [.inlineBox "strong" [.textBox "strong" "\n    "]]]],
    .blockBox "span" [.lineBox "span" [.textBox "span" "amet,"]],
    .anonBlock "p" [.lineBox "p" [.inlineBox "em" [.inlineBox "strong" []]]],
    .blockBox "span" [
      .anonBlock "span" [.lineBox "span" [
        .inlineBox "em" [.textBox "em" "consectetur"]]],
      .blockBox "div" [],
      .anonBlock "span" [.lineBox "span" [.inlineBox "em" []]]],
    .anonBlock "p" [.lineBox "p" [.inlineBox "em" []]]]

theorem block_in_inline_matches_test_boxes :
    block_in_inline (.blockBox "body" [.lineBox "body" [testPInlineBlock]]) =
      .blockBox "body" [.lineBox "body" [testPInlineBlockExpected]] := rfl

/-! ## Idempotence of inline_in_block -/

theorem iibList_eq_of_fix {l : List Box}
    (h : ∀ x ∈ l, inline_in_block x = x) : iibList l = l := by
  induction l with
  | nil => rfl
  | cons c cs ih =>
      rw [iibList, h c (by simp), ih (fun x hx => h x (by simp [hx]))]

theorem wrapRunsGo_mem (t : String) :
    ∀ (l run : List Box) (x : Box), x ∈ wrapRunsGo t run l →
      (x ∈ l ∧ isInlineLevel x = false) ∨
      ∃ r, x = Box.anonBlock t [Box.lineBox t r] ∧
        ∀ y ∈ r, y ∈ run ∨ y ∈ l := by
  intro l
  induction l with
  | nil =>
      intro run x hx
      by_cases hr : run.isEmpty
      · simp [wrapRunsGo, hr] at hx
      · simp [wrapRunsGo, hr] at hx
        exact Or.inr ⟨run, hx, fun y hy => Or.inl hy⟩
  | cons c cs ih =>
      intro run x hx
      by_cases hc : isInlineLevel c
      · rw [wrapRunsGo, if_pos hc] at hx
        rcases ih (run ++ [c]) x hx with ⟨hm, hni⟩ | ⟨r, hxr, hr⟩
        · exact Or.inl ⟨List.mem_cons_of_mem _ hm, hni⟩
        · refine Or.inr ⟨r, hxr, fun y hy => ?_⟩
          rcases hr y hy with h | h
          · rcases List.mem_append.1 h with h | h
            · exact Or.inl h
            · simp at h
              exact Or.inr (by simp [h])
          · exact Or.inr (List.mem_cons_of_mem _ h)
      · rw [wrapRunsGo, if_neg hc] at hx
        rcases List.mem_append.1 hx with hx | hx
        · by_cases hr : run.isEmpty
          · simp [hr] at hx
          · simp [hr] at hx
            exact Or.inr ⟨run, hx, fun y hy => Or.inl hy⟩
        · rcases List.mem_cons.1 hx with rfl | hx
          · exact Or.inl ⟨by simp, by simpa using hc⟩
          · rcases ih [] x hx with ⟨hm, hni⟩ | ⟨r, hxr, hr⟩
            · exact Or.inl ⟨List.mem_cons_of_mem _ hm, hni⟩
            · refine Or.inr ⟨r, hxr, fun y hy => ?_⟩
              rcases hr y hy with h | h
              · cases h
              · exact Or.inr (List.mem_cons_of_mem _ h)

theorem wrapRunsGo_id_of_not_inline (t : String) :
    ∀ l : List Box, (∀ x ∈ l, isInlineLevel x = false) →
      wrapRunsGo t [] l = l := by
  intro l
  induction l with
  | nil => intro _; rfl
  | cons c cs ih =>
      intro h
      rw [wrapRunsGo, if_neg (by simp [h c (by simp)])]
      simp [List.isEmpty]
      exact ih (fun x hx => h x (by simp [hx]))

theorem wrapRunsGo_ne_nil (t : String) :
    ∀ (l run : List Box), (∃ x ∈ l, isInlineLevel x = false) →
      wrapRunsGo t run l ≠ [] := by
  intro l
  induction l with
  | nil => rintro run ⟨x, hx, _⟩; cases hx
  | cons c cs ih =>
      rintro run ⟨x, hx, hni⟩
      by_cases hc : isInlineLevel c
      · rcases List.mem_cons.1 hx with rfl | hx
        · rw [hc] at hni; cases hni
        · rw [wrapRunsGo, if_pos hc]
          exact ih (run ++ [c]) ⟨x, hx, hni⟩
      · rw [wrapRunsGo, if_neg hc]
        intro he
        rcases List.append_eq_nil.1 he with ⟨_, he2⟩
        cases he2

theorem iibChildren_single_line (t u : String) (r : List Box) :
    iibChildren t [Box.lineBox u r] = [Box.lineBox u r] := by
  simp [iibChildren, wrapRunsGo, isInlineLevel]

theorem iibChildren_stable (t : String) (l : List Box)
    (hfix : ∀ x ∈ l, inline_in_block x = x) :
    iibList (iibChildren t l) = iibChildren t l ∧
    iibChildren t (iibChildren t l) = iibChildren t l := by
  by_cases hnil : l.isEmpty
  · rw [List.isEmpty_iff] at hnil
    subst hnil
    exact ⟨rfl, rfl⟩
  · by_cases hall : l.all isInlineLevel
    · rw [iibChildren, if_neg (by simp [hnil]), if_pos hall]
      constructor
      · rw [iibList, iibList, inline_in_block, iibList_eq_of_fix hfix]
      · exact iibChildren_single_line t t l
    · rw [iibChildren, if_neg (by simp [hnil]), if_neg hall]
      have hne : ∃ x ∈ l, isInlineLevel x = false := by
        by_contra hno
        push_neg at hno
        exact hall (List.all_eq_true.2 fun x hx => by
          cases hxl : isInlineLevel x
          · exact absurd hxl (hno x hx)
          · rfl)
      have hmemfix : ∀ x ∈ wrapRunsGo t [] l, inline_in_block x = x := by
        intro x hx
        rcases wrapRunsGo_mem t l [] x hx with ⟨hm, _⟩ | ⟨r, rfl, hr⟩
        · exact hfix x hm
        · have hrfix : ∀ y ∈ r, inline_in_block y = y := by
            intro y hy
            rcases hr y hy with h | h
            · cases h
            · exact hfix y h
          rw [inline_in_block, iibList, iibList, inline_in_block,
            iibList_eq_of_fix hrfix, iibChildren_single_line]
      have hnotinline : ∀ x ∈ wrapRunsGo t [] l, isInlineLevel x = false := by
        intro x hx
        rcases wrapRunsGo_mem t l [] x hx with ⟨_, hni⟩ | ⟨r, rfl, _⟩
        · exact hni
        · rfl
      refine ⟨iibList_eq_of_fix hmemfix, ?_⟩
      rw [iibChildren,
        if_neg (by simpa [List.isEmpty_iff] using wrapRunsGo_ne_nil t l [] hne)]
      rw [if_neg (by
        intro hall2
        obtain ⟨w, hw⟩ := List.exists_mem_of_ne_nil _ (wrapRunsGo_ne_nil t l [] hne)
        have h1 := List.all_eq_true.1 hall2 w hw
        rw [hnotinline w hw] at h1
        cases h1)]
      exact wrapRunsGo_id_of_not_inline t _ hnotinline

/-- C9 first half as a standalone pass lemma. -/
theorem inline_in_block_idem :
    ∀ b, inline_in_block (inline_in_block b) = inline_in_block b := by
  refine inline_in_block.induct
    (fun b => inline_in_block (inline_in_block b) = inline_in_block b)
    (fun l => ∀ x ∈ iibList l, inline_in_block x = x)
    ?_ ?_ ?_ ?_ ?_ ?_ ?_ ?_ ?_
  · intro t s; rfl
  · intro t; rfl
  · intro t cs ih
    rw [inline_in_block, inline_in_block, iibList_eq_of_fix ih]
  · intro t cs ih
    rw [inline_in_block, inline_in_block, iibList_eq_of_fix ih]
  · intro t cs ih
    rw [inline_in_block, inline_in_block,
      (iibChildren_stable t (iibList cs) ih).1,
      (iibChildren_stable t (iibList cs) ih).2]
  · intro t cs ih
    rw [inline_in_block, inline_in_block,
      (iibChildren_stable t (iibList cs) ih).1,
      (iibChildren_stable t (iibList cs) ih).2]
  · intro t cs ih
    rw [inline_in_block, inline_in_block,
      (iibChildren_stable t (iibList cs) ih).1,
      (iibChildren_stable t (iibList cs) ih).2]
  · intro x hx; cases hx
  · intro c cs ihc ihcs x hx
    rcases List.mem_cons.1 hx with rfl | hx
    · exact ihc
    · exact ihcs x hx

/-! ## Idempotence of block_in_inline -/

def isLineB : Box → Bool
  | .lineBox _ _ => true
  | _ => false

theorem bii_isLine (b : Box) :
    isLineB (block_in_inline b) = isLineB b := by
  cases b <;> rfl

theorem biiList_eq_of_fix {l : List Box}
    (h : ∀ x ∈ l, block_in_inline x = x) : biiList l = l := by
  induction l with
  | nil => rfl
  | cons c cs ih =>
      rw [biiList, h c (by simp), ih (fun x hx => h x (by simp [hx]))]

theorem biiList_fix_elem {l : List Box} (h : biiList l = l) :
    ∀ x ∈ l, block_in_inline x = x := by
  induction l with
  | nil => intro x hx; cases hx
  | cons c cs ih =>
      rw [biiList] at h
      intro x hx
      rcases List.mem_cons.1 hx with rfl | hx
      · exact (List.cons.injEq .. ▸ h).1
      · exact ih (List.cons.injEq .. ▸ h).2 x hx

theorem biiList_ne_nil {l : List Box} (h : l ≠ []) : biiList l ≠ [] := by
  cases l with
  | nil => exact absurd rfl h
  | cons c cs => rw [biiList]; simp

theorem allSplitFree_iff (l : List Box) :
    allSplitFree l = true ↔ ∀ x ∈ l, splitFree x = true := by
  induction l with
  | nil => simp [allSplitFree]
  | cons c cs ih => simp [allSplitFree, ih]

/-- The run of inline content kept in a line fragment: everything in it is
free of splittable blocks and is a `block_in_inline` fixed point. -/
def RunGood (s : List Box) : Prop :=
  ∀ x ∈ s, splitFree x = true ∧ block_in_inline x = x

/-- The (pulled-up block, following run) pairs produced by `biiSplit`. -/
def PairsGood (ps : List (Box × List Box)) : Prop :=
  ∀ p ∈ ps, (isBlockLevel p.1 = true ∧ block_in_inline p.1 = p.1) ∧
    RunGood p.2

theorem biiSplit_eq_of_free_aux :
    ∀ (n : Nat) (l : List Box), sizeOf l ≤ n → RunGood l →
      biiSplit l = (l, []) := by
  intro n
  induction n with
  | zero =>
      intro l hl
      cases l with
      | nil => intro _; rfl
      | cons c cs => simp at hl
  | succ n ih =>
      intro l hl hgood
      cases l with
      | nil => rfl
      | cons c cs =>
          have hc := hgood c (by simp)
          have hcs : RunGood cs := fun x hx => hgood x (by simp [hx])
          have hszcs : sizeOf cs ≤ n := by
            simp only [List.cons.sizeOf_spec] at hl
            omega
          have hrest := ih cs hszcs hcs
          cases c with
          | blockBox t ics => exact absurd hc.1 (by simp [splitFree])
          | anonBlock t ics => exact absurd hc.1 (by simp [splitFree])
          | inlineBox t ics =>
              have hfix := hc.2
              rw [block_in_inline] at hfix
              have hl2 : biiList ics = ics := (Box.inlineBox.injEq .. ▸ hfix).2
              have hsf := hc.1
              rw [splitFree] at hsf
              have hszics : sizeOf ics ≤ n := by
                simp only [List.cons.sizeOf_spec, Box.inlineBox.sizeOf_spec]
                  at hl
                omega
              have hin : biiSplit ics = (ics, []) :=
                ih ics hszics (fun x hx =>
                  ⟨(allSplitFree_iff ics).1 hsf x hx,
                   biiList_fix_elem hl2 x hx⟩)
              simp [biiSplit, hin, hrest]
          | textBox t s => simp [biiSplit, hrest, hc.2]
          | inlineReplaced t => simp [biiSplit, hrest, hc.2]
          | inlineBlock t ics => simp [biiSplit, hrest, hc.2]
          | lineBox t ics => simp [biiSplit, hrest, hc.2]

theorem biiSplit_eq_of_free (l : List Box) (h : RunGood l) :
    biiSplit l = (l, []) :=
  biiSplit_eq_of_free_aux (sizeOf l) l le_rfl h

theorem biiChildren_cons_eq (c : Box) (cs : List Box)
    (h : isLineB c = false ∨ cs ≠ []) :
    biiChildren (c :: cs) = block_in_inline c :: biiList cs := by
  rcases h with h | h
  · cases c with
    | lineBox t ics => simp [isLineB] at h
    | textBox t s => cases cs <;> rfl
    | inlineReplaced t => cases cs <;> rfl
    | blockBox t ics => cases cs <;> rfl
    | anonBlock t ics => cases cs <;> rfl
    | inlineBox t ics => cases cs <;> rfl
    | inlineBlock t ics => cases cs <;> rfl
  · cases cs with
    | nil => exact absurd rfl h
    | cons y zs => cases c <;> rfl

theorem wrapFrag_fix {lt : String} {s : List Box} (h : RunGood s) :
    block_in_inline (wrapFrag lt s) = wrapFrag lt s := by
  rw [wrapFrag, block_in_inline, biiChildren,
    biiSplit_eq_of_free s h]

theorem buildAltGo_mem (lt : String) :
    ∀ (ps : List (Box × List Box)) (b : Box) (s : List Box) (x : Box),
      x ∈ buildAltGo lt b s ps →
      (x = b ∨ ∃ q ∈ ps, x = q.1) ∨
      (x = wrapFrag lt s ∨ ∃ q ∈ ps, x = wrapFrag lt q.2) := by
  intro ps
  induction ps with
  | nil =>
      intro b s x hx
      rcases List.mem_cons.1 hx with rfl | hx
      · exact Or.inl (Or.inl rfl)
      · simp at hx
        exact Or.inr (Or.inl hx)
  | cons q ps ih =>
      intro b s x hx
      obtain ⟨b2, s2⟩ := q
      rw [buildAltGo] at hx
      rcases List.mem_cons.1 hx with rfl | hx
      · exact Or.inl (Or.inl rfl)
      · rcases List.mem_append.1 hx with hx | hx
        · by_cases hs : s.isEmpty
          · simp [hs] at hx
          · simp [hs] at hx
            exact Or.inr (Or.inl hx)
        · rcases ih b2 s2 x hx with
            (hxb | ⟨q2, hq2, hxq⟩) | (hxw | ⟨q2, hq2, hxq⟩)
          · exact Or.inl (Or.inr ⟨(b2, s2), by simp, hxb⟩)
          · exact Or.inl (Or.inr ⟨q2, by simp [hq2], hxq⟩)
          · exact Or.inr (Or.inr ⟨(b2, s2), by simp, hxw⟩)
          · exact Or.inr (Or.inr ⟨q2, by simp [hq2], hxq⟩)

theorem buildAlt_fix (lt : String) (s0 : List Box) (p : Box × List Box)
    (ps : List (Box × List Box)) (hs0 : RunGood s0)
    (hp : (isBlockLevel p.1 = true ∧ block_in_inline p.1 = p.1) ∧ RunGood p.2)
    (hps : PairsGood ps) :
    ∀ x ∈ buildAlt lt s0 p ps, block_in_inline x = x := by
  intro x hx
  rw [buildAlt] at hx
  rcases List.mem_append.1 hx with hx | hx
  · by_cases hs : s0.isEmpty
    · simp [hs] at hx
    · simp [hs] at hx
      rw [hx]
      exact wrapFrag_fix hs0
  · rcases buildAltGo_mem lt ps p.1 p.2 x hx with
      (rfl | ⟨q, hq, rfl⟩) | (rfl | ⟨q, hq, rfl⟩)
    · exact hp.1.2
    · exact (hps q hq).1.2
    · exact wrapFrag_fix hp.2
    · exact wrapFrag_fix (hps q hq).2

theorem buildAltGo_shape (lt : String) :
    ∀ (ps : List (Box × List Box)) (b : Box) (s : List Box),
      ∃ x y zs, buildAltGo lt b s ps = x :: y :: zs := by
  intro ps
  induction ps with
  | nil => exact fun b s => ⟨b, wrapFrag lt s, [], rfl⟩
  | cons q ps ih =>
      intro b s
      obtain ⟨b2, s2⟩ := q
      obtain ⟨x, y, zs, hgo⟩ := ih b2 s2
      rw [buildAltGo]
      by_cases hs : s.isEmpty
      · exact ⟨b, x, y :: zs, by simp [hs, hgo]⟩
      · exact ⟨b, wrapFrag lt s, x :: y :: zs, by simp [hs, hgo]⟩

theorem buildAlt_shape (lt : String) (s0 : List Box) (p : Box × List Box)
    (ps : List (Box × List Box)) :
    ∃ x y zs, buildAlt lt s0 p ps = x :: y :: zs := by
  obtain ⟨x, y, zs, hgo⟩ := buildAltGo_shape lt ps p.1 p.2
  rw [buildAlt]
  by_cases hs : s0.isEmpty
  · exact ⟨x, y, zs, by simp [hs, hgo]⟩
  · exact ⟨wrapFrag lt s0, x, y :: zs, by simp [hs, hgo]⟩

theorem stitch_good (t : String) :
    ∀ (ips : List (Box × List Box)) (b1 : Box) (seg1 : List Box)
      (rest : List Box × List (Box × List Box)),
      (isBlockLevel b1 = true ∧ block_in_inline b1 = b1) → RunGood seg1 →
      PairsGood ips → RunGood rest.1 → PairsGood rest.2 →
      PairsGood (stitch t b1 seg1 ips rest) := by
  have hwrap : ∀ (seg : List Box), RunGood seg →
      (splitFree (Box.inlineBox t seg) = true ∧
        block_in_inline (Box.inlineBox t seg) = Box.inlineBox t seg) := by
    intro seg hseg
    constructor
    · rw [splitFree]
      exact (allSplitFree_iff seg).2 (fun x hx => (hseg x hx).1)
    · rw [block_in_inline,
        biiList_eq_of_fix (fun x hx => (hseg x hx).2)]
  intro ips
  induction ips with
  | nil =>
      intro b1 seg1 rest hb hseg hips hr1 hr2
      intro p hp
      rw [stitch] at hp
      rcases List.mem_cons.1 hp with rfl | hp
      · refine ⟨hb, ?_⟩
        intro x hx
        rcases List.mem_cons.1 hx with rfl | hx
        · exact hwrap seg1 hseg
        · exact hr1 x hx
      · exact hr2 p hp
  | cons q ips ih =>
      intro b1 seg1 rest hb hseg hips hr1 hr2
      obtain ⟨b2, seg2⟩ := q
      intro p hp
      rw [stitch] at hp
      rcases List.mem_cons.1 hp with rfl | hp
      · refine ⟨hb, ?_⟩
        intro x hx
        rcases List.mem_cons.1 hx with rfl | hx
        · exact hwrap seg1 hseg
        · cases hx
      · have hq := hips (b2, seg2) (by simp)
        exact ih b2 seg2 rest hq.1 hq.2
          (fun q2 hq2 => hips q2 (by simp [hq2])) hr1 hr2 p hp

theorem splitFree_bii_atomic (c : Box)
    (hb : ∀ t ics, c = Box.blockBox t ics → False)
    (ha : ∀ t ics, c = Box.anonBlock t ics → False)
    (hi : ∀ t ics, c = Box.inlineBox t ics → False) :
    splitFree (block_in_inline c) = true := by
  cases c with
  | blockBox t ics => exact absurd rfl (hb t ics)
  | anonBlock t ics => exact absurd rfl (ha t ics)
  | inlineBox t ics => exact absurd rfl (hi t ics)
  | textBox t s => rfl
  | inlineReplaced t => rfl
  | inlineBlock t ics => rfl
  | lineBox t ics => rfl

theorem block_in_inline_idem :
    ∀ b, block_in_inline (block_in_inline b) = block_in_inline b := by
  refine block_in_inline.induct
    (fun b => block_in_inline (block_in_inline b) = block_in_inline b)
    (fun l => biiChildren (biiChildren l) = biiChildren l)
    (fun l => ∀ x ∈ biiList l, block_in_inline x = x)
    (fun l => RunGood (biiSplit l).1 ∧ PairsGood (biiSplit l).2)
    ?_ ?_ ?_ ?_ ?_ ?_ ?_ ?_ ?_ ?_ ?_ ?_ ?_ ?_ ?_ ?_ ?_ ?_ ?_
  · intro t s; rfl
  · intro t; rfl
  · intro t cs ih
    rw [block_in_inline, block_in_inline, biiList_eq_of_fix ih]
  · intro t cs ih
    rw [block_in_inline, block_in_inline, biiList_eq_of_fix ih]
  · intro t cs ih
    rw [block_in_inline, block_in_inline, ih]
  · intro t cs ih
    rw [block_in_inline, block_in_inline, ih]
  · intro t cs ih
    rw [block_in_inline, block_in_inline, ih]
  · intro lt lcs s0 hsplit ih4
    have hs0 : RunGood s0 := by
      have h := ih4.1
      rw [hsplit] at h
      exact h
    have h1 : biiChildren [Box.lineBox lt lcs] = [Box.lineBox lt s0] := by
      simp [biiChildren, hsplit]
    rw [h1]
    simp [biiChildren, biiSplit_eq_of_free s0 hs0]
  · intro lt lcs s0 p ps hsplit ih4
    have hs0 : RunGood s0 := by
      have h := ih4.1
      rw [hsplit] at h
      exact h
    have hps : PairsGood (p :: ps) := by
      have h := ih4.2
      rw [hsplit] at h
      exact h
    have h1 : biiChildren [Box.lineBox lt lcs] = buildAlt lt s0 p ps := by
      simp [biiChildren, hsplit]
    rw [h1]
    obtain ⟨x, y, zs, hshape⟩ := buildAlt_shape lt s0 p ps
    have hfix : ∀ w ∈ buildAlt lt s0 p ps, block_in_inline w = w :=
      buildAlt_fix lt s0 p ps hs0 (hps p (by simp))
        (fun q hq => hps q (by simp [hq]))
    have hfix2 : ∀ w ∈ x :: y :: zs, block_in_inline w = w := by
      rw [← hshape]
      exact hfix
    have hl : biiList (x :: y :: zs) = x :: y :: zs :=
      biiList_eq_of_fix hfix2
    rw [hshape, biiChildren_cons_eq x (y :: zs) (Or.inr (by simp))]
    rw [biiList] at hl
    exact hl
  · rfl
  · intro c cs hne ih1 ih3
    have h1 : isLineB c = false ∨ cs ≠ [] := by
      cases hcl : isLineB c
      · exact Or.inl rfl
      · right
        intro hcs
        cases c with
        | lineBox lt lcs => exact hne lt lcs rfl hcs
        | textBox t s => simp [isLineB] at hcl
        | inlineReplaced t => simp [isLineB] at hcl
        | blockBox t ics => simp [isLineB] at hcl
        | anonBlock t ics => simp [isLineB] at hcl
        | inlineBox t ics => simp [isLineB] at hcl
        | inlineBlock t ics => simp [isLineB] at hcl
    have h2 : isLineB (block_in_inline c) = false ∨ biiList cs ≠ [] := by
      rcases h1 with h | h
      · exact Or.inl (by rw [bii_isLine]; exact h)
      · exact Or.inr (biiList_ne_nil h)
    rw [biiChildren_cons_eq c cs h1, biiChildren_cons_eq _ _ h2, ih1,
      biiList_eq_of_fix ih3]
  · intro x hx; cases hx
  · intro c cs ih1 ih3 x hx
    rcases List.mem_cons.1 hx with rfl | hx
    · exact ih1
    · exact ih3 x hx
  · constructor
    · intro x hx
      simp [biiSplit] at hx
    · intro p hp
      simp [biiSplit] at hp
  · intro cs t ics ih4 ih2
    have heq : biiSplit (Box.blockBox t ics :: cs) =
        ([], (Box.blockBox t (biiChildren ics), (biiSplit cs).1) ::
          (biiSplit cs).2) := rfl
    rw [heq]
    constructor
    · intro x hx; cases hx
    · intro p hp
      rcases List.mem_cons.1 hp with rfl | hp
      · refine ⟨⟨rfl, ?_⟩, ih4.1⟩
        rw [block_in_inline, ih2]
      · exact ih4.2 p hp
  · intro cs t ics ih4 ih2
    have heq : biiSplit (Box.anonBlock t ics :: cs) =
        ([], (Box.anonBlock t (biiChildren ics), (biiSplit cs).1) ::
          (biiSplit cs).2) := rfl
    rw [heq]
    constructor
    · intro x hx; cases hx
    · intro p hp
      rcases List.mem_cons.1 hp with rfl | hp
      · refine ⟨⟨rfl, ?_⟩, ih4.1⟩
        rw [block_in_inline, ih2]
      · exact ih4.2 p hp
  · intro cs t ics s0 hsplit ih4cs ih4ics
    have hs0 : RunGood s0 := by
      have h := ih4ics.1
      rw [hsplit] at h
      exact h
    have heq : biiSplit (Box.inlineBox t ics :: cs) =
        (Box.inlineBox t s0 :: (biiSplit cs).1, (biiSplit cs).2) := by
      simp [biiSplit, hsplit]
    rw [heq]
    constructor
    · intro x hx
      rcases List.mem_cons.1 hx with rfl | hx
      · constructor
        · rw [splitFree]
          exact (allSplitFree_iff s0).2 (fun y hy => (hs0 y hy).1)
        · rw [block_in_inline,
            biiList_eq_of_fix (fun y hy => (hs0 y hy).2)]
      · exact ih4cs.1 x hx
    · exact ih4cs.2
  · intro cs t ics s0 b1 seg1 ips hsplit ih4cs ih4ics
    have hs0 : RunGood s0 := by
      have h := ih4ics.1
      rw [hsplit] at h
      exact h
    have hips : PairsGood ((b1, seg1) :: ips) := by
      have h := ih4ics.2
      rw [hsplit] at h
      exact h
    have heq : biiSplit (Box.inlineBox t ics :: cs) =
        ([Box.inlineBox t s0], stitch t b1 seg1 ips (biiSplit cs)) := by
      simp [biiSplit, hsplit]
    rw [heq]
    constructor
    · intro x hx
      rcases List.mem_cons.1 hx with rfl | hx
      · constructor
        · rw [splitFree]
          exact (allSplitFree_iff s0).2 (fun y hy => (hs0 y hy).1)
        · rw [block_in_inline,
            biiList_eq_of_fix (fun y hy => (hs0 y hy).2)]
      · cases hx
    · exact stitch_good t ips b1 seg1 (biiSplit cs)
        (hips (b1, seg1) (by simp)).1 (hips (b1, seg1) (by simp)).2
        (fun q hq => hips q (by simp [hq])) ih4cs.1 ih4cs.2
  · intro cs c hb ha hi ih4 ih1
    have heq : biiSplit (c :: cs) =
        (block_in_inline c :: (biiSplit cs).1, (biiSplit cs).2) := by
      cases c with
      | blockBox t ics => exact absurd rfl (hb t ics)
      | anonBlock t ics => exact absurd rfl (ha t ics)
      | inlineBox t ics => exact absurd rfl (hi t ics)
      | textBox t s => rfl
      | inlineReplaced t => rfl
      | inlineBlock t ics => rfl
      | lineBox t ics => rfl
    rw [heq]
    constructor
    · intro x hx
      rcases List.mem_cons.1 hx with rfl | hx
      · exact ⟨splitFree_bii_atomic c hb ha hi, ih1⟩
      · exact ih4.1 x hx
    · exact ih4.2

/-- C9: both normalization passes are idempotent: re-applying
`inline_in_block` or `block_in_inline` to its own output returns an equal
tree, for every box tree. -/
theorem normalization_passes_idempotent (b : Box) :
    inline_in_block (inline_in_block b) = inline_in_block b ∧
    block_in_inline (block_in_inline b) = block_in_inline b :=
  ⟨inline_in_block_idem b, block_in_inline_idem b⟩
